import Mathlib

/-!
# Verification of the BEN / XBEN codec (`binary-ensemble`)

A shallow embedding of the core of the `binary-ensemble` repository:
the bit-packed run-length BEN encoder (`src/encode/mod.rs`), the BEN
decoder (`ben/src/decode/mod.rs` and `src/decode/mod.rs`), the
random-access reader (`src/decode/read.rs`), the XBEN frame scanner and
the subsampling adapter (`ben/src/decode/mod.rs`).

Machine integers are modelled as `Nat` with explicit `% 2 ^ w` at the
points where the Rust code can wrap; byte streams are `List Nat` with
every element `< 256`; fallible reads return `Option`/sum types, and an
`.expect`/`.unwrap` panic in the Rust source is modelled by a dedicated
`none`/`panicked` outcome.

The `utils` module of the repository (`assign_to_rle`, `rle_to_vec`) is
not part of the provided sources; those two definitions are modelled
from the specification (§4.1) and are marked as such.
-/

/-! ## Bit-stream utilities

Big-endian bit strings used to state what the bit-packing code computes.
`natToBits w x` is the low `w` bits of `x`, most significant first.
-/

def natToBits : Nat → Nat → List Bool
  | 0, _ => []
  | w + 1, x => natToBits w (x / 2) ++ [decide (x % 2 = 1)]

/-- Value of a big-endian bit string (most significant bit first). -/
def bitsToNat : List Bool → Nat
  | [] => 0
  | b :: bs => (if b then 1 else 0) * 2 ^ bs.length + bitsToNat bs

def byteToBits (b : Nat) : List Bool := natToBits 8 b

def bytesToBits (bs : List Nat) : List Bool := bs.flatMap byteToBits

@[simp] theorem length_natToBits (w x : Nat) : (natToBits w x).length = w := by
  induction w generalizing x with
  | zero => rfl
  | succ w ih => simp [natToBits, ih]

@[simp] theorem bitsToNat_nil : bitsToNat [] = 0 := rfl

theorem bitsToNat_cons (b : Bool) (bs : List Bool) :
    bitsToNat (b :: bs) = (if b then 1 else 0) * 2 ^ bs.length + bitsToNat bs := rfl

theorem bitsToNat_append (a b : List Bool) :
    bitsToNat (a ++ b) = bitsToNat a * 2 ^ b.length + bitsToNat b := by
  induction a with
  | nil => simp
  | cons x xs ih =>
      simp only [List.cons_append, bitsToNat_cons, ih, List.length_append]
      ring

theorem bitsToNat_lt (bs : List Bool) : bitsToNat bs < 2 ^ bs.length := by
  induction bs with
  | nil => simp [bitsToNat]
  | cons b t ih =>
      simp only [bitsToNat_cons, List.length_cons, pow_succ]
      rcases b <;> simp <;> omega

theorem bitsToNat_singleton (b : Bool) : bitsToNat [b] = if b then 1 else 0 := by
  simp [bitsToNat_cons]

theorem mod_two_pow_succ (x w : Nat) : x % 2 ^ (w + 1) = (x / 2 % 2 ^ w) * 2 + x % 2 := by
  rw [pow_succ' 2 w, Nat.mod_mul]
  ring

theorem bitsToNat_natToBits (w x : Nat) : bitsToNat (natToBits w x) = x % 2 ^ w := by
  induction w generalizing x with
  | zero => simp [natToBits, Nat.mod_one]
  | succ w ih =>
      rw [natToBits, bitsToNat_append, ih, bitsToNat_singleton]
      have h2 : (if decide (x % 2 = 1) = true then 1 else 0) = x % 2 := by
        rcases Nat.mod_two_eq_zero_or_one x with h | h <;> simp [h]
      rw [List.length_singleton, pow_one, h2, mod_two_pow_succ]

theorem natToBits_bitsToNat (bs : List Bool) : natToBits bs.length (bitsToNat bs) = bs := by
  induction bs using List.reverseRecOn with
  | nil => rfl
  | append_singleton a b ih =>
      have hval : bitsToNat (a ++ [b]) = bitsToNat a * 2 + (if b then 1 else 0) := by
        rw [bitsToNat_append, bitsToNat_singleton]; simp
      have hlen : (a ++ [b]).length = a.length + 1 := by simp
      rw [hlen, hval, natToBits]
      have hdiv : (bitsToNat a * 2 + (if b then 1 else 0)) / 2 = bitsToNat a := by
        rcases b <;> simp <;> omega
      have hmod : decide ((bitsToNat a * 2 + (if b then 1 else 0)) % 2 = 1) = b := by
        rcases b <;> simp [Nat.mul_add_mod, Nat.add_mul_mod_self_left] <;> omega
      rw [hdiv, hmod, ih]

theorem natToBits_of_lt {w x : Nat} (h : x < 2 ^ w) :
    bitsToNat (natToBits w x) = x := by
  rw [bitsToNat_natToBits, Nat.mod_eq_of_lt h]

theorem natToBits_add (a b x : Nat) :
    natToBits (a + b) x = natToBits a (x / 2 ^ b) ++ natToBits b x := by
  induction b generalizing x with
  | zero => simp [natToBits]
  | succ b ih =>
      rw [show a + (b + 1) = (a + b) + 1 from rfl, natToBits, ih, natToBits,
        List.append_assoc, Nat.div_div_eq_div_mul, pow_succ' 2 b]

theorem natToBits_congr_mod {w x y : Nat} (h : x % 2 ^ w = y % 2 ^ w) :
    natToBits w x = natToBits w y := by
  induction w generalizing x y with
  | zero => rfl
  | succ w ih =>
      have hx := mod_two_pow_succ x w
      have hy := mod_two_pow_succ y w
      have hx2 : x % 2 < 2 := Nat.mod_lt _ (by norm_num)
      have hy2 : y % 2 < 2 := Nat.mod_lt _ (by norm_num)
      have hmod : x % 2 = y % 2 := by omega
      have hdiv : x / 2 % 2 ^ w = y / 2 % 2 ^ w := by omega
      rw [natToBits, natToBits, ih hdiv, hmod]

@[simp] theorem natToBits_zero (w : Nat) : natToBits w 0 = List.replicate w false := by
  induction w with
  | zero => rfl
  | succ w ih =>
      rw [natToBits, Nat.zero_div, ih]
      simp [List.replicate_succ' w false]

/-! ## Bit widths

`u16Size x` models `16 - x.leading_zeros()` for a `u16` value `x`: the
number of bits needed to write `x`.  It is given fuel `16` (enough for
any `u16`) so that it is structurally recursive and kernel-evaluable.
-/

def sizeFuel : Nat → Nat → Nat
  | 0, _ => 0
  | f + 1, x => if x = 0 then 0 else sizeFuel f (x / 2) + 1

def u16Size (x : Nat) : Nat := sizeFuel 16 x

theorem lt_two_pow_sizeFuel {f x : Nat} (h : x < 2 ^ f) : x < 2 ^ sizeFuel f x := by
  induction f generalizing x with
  | zero => simpa [sizeFuel] using h
  | succ f ih =>
      rw [sizeFuel]
      by_cases h0 : x = 0
      · simpa [h0] using by omega
      · simp only [h0, if_false]
        have hdiv : x / 2 < 2 ^ f := by
          have := Nat.div_lt_iff_lt_mul (k := 2) (x := x) (y := 2 ^ f) (by norm_num)
          rw [this]
          calc x < 2 ^ (f + 1) := h
          _ = 2 ^ f * 2 := by rw [pow_succ]
        have := ih hdiv
        have h2 : x < 2 * (x / 2) + 2 := by omega
        calc x < 2 * (x / 2) + 2 := h2
        _ ≤ 2 * (2 ^ sizeFuel f (x / 2) - 1) + 2 := by omega
        _ ≤ 2 ^ (sizeFuel f (x / 2) + 1) := by
              have : 1 ≤ 2 ^ sizeFuel f (x / 2) := Nat.one_le_two_pow
              rw [pow_succ]
              omega

theorem sizeFuel_le {f x w : Nat} (h : x < 2 ^ w) : sizeFuel f x ≤ w := by
  induction f generalizing x w with
  | zero => simp [sizeFuel]
  | succ f ih =>
      rw [sizeFuel]
      by_cases h0 : x = 0
      · simp [h0]
      · simp only [h0, if_false]
        have hw : w ≠ 0 := by
          rintro rfl
          simp at h
          omega
        obtain ⟨w', rfl⟩ := Nat.exists_eq_succ_of_ne_zero hw
        have : x / 2 < 2 ^ w' := by
          rw [Nat.div_lt_iff_lt_mul (by norm_num : 0 < 2)]
          calc x < 2 ^ (w' + 1) := h
          _ = 2 ^ w' * 2 := by rw [pow_succ]
        exact Nat.succ_le_succ (ih this)

theorem sizeFuel_pos {f x : Nat} (hf : 0 < f) (hx : 0 < x) : 0 < sizeFuel f x := by
  obtain ⟨f', rfl⟩ := Nat.exists_eq_succ_of_ne_zero (Nat.pos_iff_ne_zero.mp hf)
  rw [sizeFuel]
  simp [Nat.pos_iff_ne_zero.mp hx]

/-! ## The BEN bit-packer (`src/encode/mod.rs`, `encode_ben_vec_from_rle`)

Rust `u32` arithmetic is modelled with explicit `% 2 ^ 32`.
`u32mask n` is `!(0xFFFFFFFF_u32 << n)`, the mask the encoder uses to
keep the low `n` bits of its shift register.
-/

def u32mask (n : Nat) : Nat := ((0xFFFFFFFF <<< n) % 2 ^ 32) ^^^ 0xFFFFFFFF

theorem u32mask_eq : ∀ n, n ≤ 32 → u32mask n = 2 ^ n - 1 := by decide

@[simp] theorem bytesToBits_nil : bytesToBits [] = [] := rfl

@[simp] theorem bytesToBits_cons (b : Nat) (l : List Nat) :
    bytesToBits (b :: l) = byteToBits b ++ bytesToBits l := by
  simp [bytesToBits]

theorem bytesToBits_append (a b : List Nat) :
    bytesToBits (a ++ b) = bytesToBits a ++ bytesToBits b := by
  simp [bytesToBits]

@[simp] theorem length_byteToBits (b : Nat) : (byteToBits b).length = 8 := by
  simp [byteToBits]

theorem length_bytesToBits (l : List Nat) : (bytesToBits l).length = 8 * l.length := by
  induction l with
  | nil => simp
  | cons b t ih => simp [ih]; ring

/-- The `while n_bits_left >= 8` flush loop of `encode_ben_vec_from_rle`:
pops full bytes off the top of the shift register `new_val`.  The fuel
(first argument) makes the loop structurally recursive; `4` is always
enough, as the register never holds more than 31 bits. -/
def flushBytes : Nat → Nat → Nat → List Nat × Nat × Nat
  | 0, new_val, n => ([], new_val, n)
  | fuel + 1, new_val, n =>
      if 8 ≤ n then
        let n' := n - 8
        let buff := (new_val >>> n') % 256
        let r := flushBytes fuel (new_val &&& u32mask n') n'
        (buff :: r.1, r.2)
      else ([], new_val, n)

theorem flushBytes_spec :
    ∀ fuel n v, n ≤ 8 * fuel + 7 → n ≤ 31 → v < 2 ^ n →
      (flushBytes fuel v n).2.2 = n % 8 ∧
      (flushBytes fuel v n).2.1 < 2 ^ (n % 8) ∧
      (∀ b ∈ (flushBytes fuel v n).1, b < 256) ∧
      (flushBytes fuel v n).1.length = n / 8 ∧
      bytesToBits (flushBytes fuel v n).1 ++ natToBits (n % 8) (flushBytes fuel v n).2.1 =
        natToBits n v := by
  intro fuel
  induction fuel with
  | zero =>
      intro n v hfuel hn hv
      have hm : n % 8 = n := Nat.mod_eq_of_lt (by omega)
      have hd : n / 8 = 0 := Nat.div_eq_of_lt (by omega)
      rw [flushBytes]
      exact ⟨by simp [hm], by simpa [hm] using hv, by simp, by simp [hd], by simp [hm]⟩
  | succ fuel ih =>
    intro n v hfuel hn hv
    by_cases h8 : 8 ≤ n
    · rw [flushBytes]
      simp only [if_pos h8]
      set n' := n - 8 with hn'
      have hmask : v &&& u32mask n' = v % 2 ^ n' := by
        rw [u32mask_eq n' (by omega), Nat.and_pow_two_sub_one_eq_mod]
      have hrec := ih n' (v % 2 ^ n') (by omega) (by omega)
        (Nat.mod_lt _ (Nat.two_pow_pos n'))
      have hbuff : (v >>> n') % 256 = v / 2 ^ n' := by
        rw [Nat.shiftRight_eq_div_pow]
        have : v / 2 ^ n' < 2 ^ 8 := by
          rw [Nat.div_lt_iff_lt_mul (Nat.two_pow_pos n'), ← pow_add]
          have : n' + 8 = n := by omega
          rw [Nat.add_comm, this]
          exact hv
        exact Nat.mod_eq_of_lt this
      rw [hmask]
      set r := flushBytes fuel (v % 2 ^ n') n' with hr
      obtain ⟨e1, e2, e3, e4, e5⟩ := hrec
      have hmod8 : n % 8 = n' % 8 := by omega
      have hdiv8 : n / 8 = n' / 8 + 1 := by omega
      refine ⟨by simpa [hmod8] using e1, by simpa [hmod8] using e2, ?_, ?_, ?_⟩
      · intro b hb
        rcases List.mem_cons.mp hb with hb | hb
        · subst hb; exact Nat.mod_lt _ (by norm_num)
        · exact e3 b hb
      · simp [e4, hdiv8]
      · have hsplit : natToBits n v = natToBits 8 (v / 2 ^ n') ++ natToBits n' v := by
          have : n = 8 + n' := by omega
          rw [this, natToBits_add]
        rw [bytesToBits_cons, hbuff, hmod8, List.append_assoc, hsplit]
        congr 1
        rw [e5]
        exact natToBits_congr_mod (by simp [Nat.mod_mod_of_dvd])
    · rw [flushBytes]
      simp only [if_neg h8]
      have hm : n % 8 = n := Nat.mod_eq_of_lt (by omega)
      have hd : n / 8 = 0 := Nat.div_eq_of_lt (by omega)
      exact ⟨by simp [hm], by simpa [hm] using hv, by simp, by simp [hd], by simp [hm]⟩

structure EncAcc where
  out : List Nat
  remainder : Nat
  remainder_bits : Nat

/-- One iteration of the `for (val, len) in rle_vec` loop of
`encode_ben_vec_from_rle`: feed the value and the length fields through
the shift register, flushing full bytes after each field. -/
def encodeRun (max_val_bits max_len_bits : Nat) (st : EncAcc) (run : Nat × Nat) : EncAcc :=
  let new_val := (st.remainder <<< max_val_bits) ||| run.1
  let n_bits_left := st.remainder_bits + max_val_bits
  let r1 := flushBytes 4 new_val n_bits_left
  let new_val2 := (r1.2.1 <<< max_len_bits) ||| run.2
  let n2 := r1.2.2 + max_len_bits
  let r2 := flushBytes 4 new_val2 n2
  { out := st.out ++ r1.1 ++ r2.1, remainder := r2.2.1, remainder_bits := r2.2.2 }

/-- The bit string obtained by writing each run as `vb` value bits
followed by `lb` length bits, big-endian. -/
def fieldBits (vb lb : Nat) (rle : List (Nat × Nat)) : List Bool :=
  rle.flatMap fun r => natToBits vb r.1 ++ natToBits lb r.2

@[simp] theorem fieldBits_nil (vb lb : Nat) : fieldBits vb lb [] = [] := rfl

@[simp] theorem fieldBits_cons (vb lb : Nat) (r : Nat × Nat) (t : List (Nat × Nat)) :
    fieldBits vb lb (r :: t) =
      natToBits vb r.1 ++ natToBits lb r.2 ++ fieldBits vb lb t := by
  simp [fieldBits]

theorem length_fieldBits (vb lb : Nat) (rle : List (Nat × Nat)) :
    (fieldBits vb lb rle).length = (vb + lb) * rle.length := by
  induction rle with
  | nil => simp
  | cons r t ih => simp [ih]; ring

/-- Feeding one field of `width` bits into the shift register. -/
theorem shift_or_eq_add {rem width field : Nat} (hf : field < 2 ^ width) :
    (rem <<< width) ||| field = 2 ^ width * rem + field := by
  rw [Nat.shiftLeft_eq, Nat.mul_comm]
  exact (Nat.mul_add_lt_is_or hf rem).symm

theorem encodeRun_spec {vb lb : Nat} (hvb : vb ≤ 16) (hlb : lb ≤ 16)
    (st : EncAcc) (run : Nat × Nat)
    (hrb : st.remainder_bits < 8) (hrem : st.remainder < 2 ^ st.remainder_bits)
    (hv : run.1 < 2 ^ vb) (hl : run.2 < 2 ^ lb) :
    let st' := encodeRun vb lb st run
    st'.remainder_bits < 8 ∧ st'.remainder < 2 ^ st'.remainder_bits ∧
    (∃ extra, st'.out = st.out ++ extra ∧ ∀ b ∈ extra, b < 256) ∧
    8 * st'.out.length + st'.remainder_bits =
      8 * st.out.length + st.remainder_bits + vb + lb ∧
    bytesToBits st'.out ++ natToBits st'.remainder_bits st'.remainder =
      bytesToBits st.out ++ natToBits st.remainder_bits st.remainder ++
        natToBits vb run.1 ++ natToBits lb run.2 := by
  intro st'
  have hnv : (st.remainder <<< vb) ||| run.1 = 2 ^ vb * st.remainder + run.1 :=
    shift_or_eq_add hv
  set n1 := st.remainder_bits + vb with hn1
  have hnvlt : 2 ^ vb * st.remainder + run.1 < 2 ^ n1 := by
    have : 2 ^ vb * st.remainder + run.1 < 2 ^ vb * (st.remainder + 1) := by
      rw [Nat.mul_add, Nat.mul_one]
      omega
    calc 2 ^ vb * st.remainder + run.1 < 2 ^ vb * (st.remainder + 1) := this
    _ ≤ 2 ^ vb * 2 ^ st.remainder_bits := by
          exact Nat.mul_le_mul_left _ (by omega)
    _ = 2 ^ n1 := by rw [← pow_add, hn1, Nat.add_comm]
  have hbits1 : natToBits n1 (2 ^ vb * st.remainder + run.1) =
      natToBits st.remainder_bits st.remainder ++ natToBits vb run.1 := by
    rw [hn1, natToBits_add]
    congr 1
    · congr 1
      rw [Nat.mul_add_div (Nat.two_pow_pos vb),
        Nat.div_eq_of_lt hv, Nat.add_zero]
    · exact natToBits_congr_mod (by
        rw [Nat.mul_add_mod, Nat.mod_eq_of_lt hv])
  have hf1 := flushBytes_spec 4 n1 (2 ^ vb * st.remainder + run.1) (by omega) (by omega) hnvlt
  obtain ⟨f11, f12, f13, f14, f15⟩ := hf1
  set r1 := flushBytes 4 (2 ^ vb * st.remainder + run.1) n1 with hr1
  have hnv2 : (r1.2.1 <<< lb) ||| run.2 = 2 ^ lb * r1.2.1 + run.2 :=
    shift_or_eq_add hl
  set n2 := r1.2.2 + lb with hn2
  have hnlt2 : 2 ^ lb * r1.2.1 + run.2 < 2 ^ n2 := by
    have h1 : r1.2.1 < 2 ^ r1.2.2 := by rw [f11]; exact f12
    have : 2 ^ lb * r1.2.1 + run.2 < 2 ^ lb * (r1.2.1 + 1) := by
      rw [Nat.mul_add, Nat.mul_one]
      omega
    calc 2 ^ lb * r1.2.1 + run.2 < 2 ^ lb * (r1.2.1 + 1) := this
    _ ≤ 2 ^ lb * 2 ^ r1.2.2 := Nat.mul_le_mul_left _ (by omega)
    _ = 2 ^ n2 := by rw [← pow_add, hn2, Nat.add_comm]
  have hbits2 : natToBits n2 (2 ^ lb * r1.2.1 + run.2) =
      natToBits r1.2.2 r1.2.1 ++ natToBits lb run.2 := by
    rw [hn2, natToBits_add]
    congr 1
    · congr 1
      rw [Nat.mul_add_div (Nat.two_pow_pos lb),
        Nat.div_eq_of_lt hl, Nat.add_zero]
    · exact natToBits_congr_mod (by
        rw [Nat.mul_add_mod, Nat.mod_eq_of_lt hl])
  have hn2le : n2 ≤ 31 := by
    have : r1.2.2 = n1 % 8 := f11
    have : r1.2.2 < 8 := by omega
    omega
  have hf2 := flushBytes_spec 4 n2 (2 ^ lb * r1.2.1 + run.2) (by omega) hn2le hnlt2
  obtain ⟨f21, f22, f23, f24, f25⟩ := hf2
  set r2 := flushBytes 4 (2 ^ lb * r1.2.1 + run.2) n2 with hr2
  have hst' : st' = ⟨st.out ++ r1.1 ++ r2.1, r2.2.1, r2.2.2⟩ := by
    show encodeRun vb lb st run = _
    rw [encodeRun]
    simp only [hnv, hnv2, ← hn1, ← hn2, ← hr1, ← hr2]
  rw [hst']
  refine ⟨by simpa [f21] using Nat.mod_lt _ (by norm_num), by simpa [f21] using f22,
    ⟨r1.1 ++ r2.1, by simp, ?_⟩, ?_, ?_⟩
  · intro b hb
    rcases List.mem_append.mp hb with hb | hb
    · exact f13 b hb
    · exact f23 b hb
  · show 8 * (st.out ++ r1.1 ++ r2.1).length + r2.2.2 = _
    have e1 : r1.1.length = n1 / 8 := f14
    have e2 : r2.1.length = n2 / 8 := f24
    have e3 : r1.2.2 = n1 % 8 := f11
    have e4 : r2.2.2 = n2 % 8 := f21
    simp only [List.length_append, e1, e2]
    omega
  · show bytesToBits (st.out ++ r1.1 ++ r2.1) ++ natToBits r2.2.2 r2.2.1 = _
    rw [bytesToBits_append, bytesToBits_append, f21]
    simp only [List.append_assoc]
    rw [f25, hbits2, ← List.append_assoc (bytesToBits r1.1), f11, f15, hbits1]
    simp only [List.append_assoc]

theorem encodeRun_foldl_spec {vb lb : Nat} (hvb : vb ≤ 16) (hlb : lb ≤ 16) :
    ∀ (rle : List (Nat × Nat)) (st : EncAcc),
      st.remainder_bits < 8 → st.remainder < 2 ^ st.remainder_bits →
      (∀ p ∈ rle, p.1 < 2 ^ vb ∧ p.2 < 2 ^ lb) →
      let st' := rle.foldl (encodeRun vb lb) st
      st'.remainder_bits < 8 ∧ st'.remainder < 2 ^ st'.remainder_bits ∧
      (∃ extra, st'.out = st.out ++ extra ∧ ∀ b ∈ extra, b < 256) ∧
      8 * st'.out.length + st'.remainder_bits =
        8 * st.out.length + st.remainder_bits + (vb + lb) * rle.length ∧
      bytesToBits st'.out ++ natToBits st'.remainder_bits st'.remainder =
        bytesToBits st.out ++ natToBits st.remainder_bits st.remainder ++
          fieldBits vb lb rle := by
  intro rle
  induction rle with
  | nil =>
      intro st h1 h2 _
      exact ⟨h1, h2, ⟨[], by simp, by simp⟩, by simp, by simp⟩
  | cons r t ih =>
      intro st h1 h2 hmem
      dsimp only
      simp only [List.foldl_cons]
      have hr := hmem r (List.mem_cons_self r t)
      have hstep := encodeRun_spec hvb hlb st r h1 h2 hr.1 hr.2
      obtain ⟨s1, s2, ⟨e1, he1, he2⟩, s4, s5⟩ := hstep
      have hrest := ih (encodeRun vb lb st r) s1 s2
        (fun p hp => hmem p (List.mem_cons_of_mem r hp))
      obtain ⟨t1, t2, ⟨e2, hf1, hf2⟩, t4, t5⟩ := hrest
      refine ⟨t1, t2, ⟨e1 ++ e2, ?_, ?_⟩, ?_, ?_⟩
      · rw [hf1, he1, List.append_assoc]
      · intro b hb
        rcases List.mem_append.mp hb with hb | hb
        · exact he2 b hb
        · exact hf2 b hb
      · rw [t4, s4]
        simp only [List.length_cons]
        ring
      · rw [t5, s5, fieldBits_cons]
        simp only [List.append_assoc]

/-- `rle_vec.iter().max_by_key(|x| x.0).unwrap().0`: the largest run value. -/
def rleMaxVal (rle : List (Nat × Nat)) : Nat := (rle.map Prod.fst).foldl max 0

/-- `rle_vec.iter().max_by_key(|x| x.1).unwrap().1`: the largest run length. -/
def rleMaxLen (rle : List (Nat × Nat)) : Nat := (rle.map Prod.snd).foldl max 0

/-- `(16 - max_val.leading_zeros() as u8).max(1)`. -/
def benValBits (rle : List (Nat × Nat)) : Nat := max (u16Size (rleMaxVal rle)) 1

/-- `16 - max_len.leading_zeros() as u8` (note: no `.max(1)` here). -/
def benLenBits (rle : List (Nat × Nat)) : Nat := u16Size (rleMaxLen rle)

/-- `assign_bits * rle_vec.len() as u32` (u32 product). -/
def benTotalBits (rle : List (Nat × Nat)) : Nat :=
  ((benValBits rle + benLenBits rle) * rle.length) % 2 ^ 32

/-- The declared `n_bytes` header field. -/
def benNBytes (rle : List (Nat × Nat)) : Nat :=
  if benTotalBits rle % 8 = 0 then benTotalBits rle / 8 else benTotalBits rle / 8 + 1

/-- `u32::to_be_bytes`. -/
def u32be (x : Nat) : List Nat :=
  [x / 2 ^ 24 % 256, x / 2 ^ 16 % 256, x / 2 ^ 8 % 256, x % 256]

/-- `u16::to_be_bytes`. -/
def u16be (x : Nat) : List Nat := [x / 2 ^ 8 % 256, x % 256]

/-- `encode_ben_vec_from_rle` (`src/encode/mod.rs`, lines 422–477).
Returns `none` exactly when the Rust function panics: on an empty run
list, `.max_by_key(..).unwrap()` unwraps `None`. -/
def encode_ben_vec_from_rle (rle : List (Nat × Nat)) : Option (List Nat) :=
  if rle = [] then none
  else
    let max_val_bits := benValBits rle
    let max_len_bits := benLenBits rle
    let st := rle.foldl (encodeRun max_val_bits max_len_bits) ⟨[], 0, 0⟩
    let payload := st.out ++
      (if 0 < st.remainder_bits
        then [(st.remainder <<< (8 - st.remainder_bits)) % 256] else [])
    some (max_val_bits :: max_len_bits :: u32be (benNBytes rle) ++ payload)

theorem foldl_max_le {l : List Nat} {B : Nat} (h : ∀ x ∈ l, x ≤ B) :
    ∀ a, a ≤ B → l.foldl max a ≤ B := by
  induction l with
  | nil => intro a ha; simpa using ha
  | cons x t ih =>
      intro a ha
      rw [List.foldl_cons]
      exact ih (fun y hy => h y (List.mem_cons_of_mem x hy)) _
        (max_le ha (h x (List.mem_cons_self x t)))

theorem foldl_max_le_acc (l : List Nat) : ∀ a, a ≤ l.foldl max a := by
  induction l with
  | nil => simp
  | cons x t ih =>
      intro a
      rw [List.foldl_cons]
      exact le_trans (le_max_left a x) (ih _)

theorem le_foldl_max {l : List Nat} {x : Nat} (h : x ∈ l) :
    ∀ a, x ≤ l.foldl max a := by
  induction l with
  | nil => cases h
  | cons y t ih =>
      intro a
      rw [List.foldl_cons]
      rcases List.mem_cons.mp h with rfl | h
      · exact le_trans (le_max_right a x) (foldl_max_le_acc t _)
      · exact ih h _

theorem pow_le_pow_right_two {a b : Nat} (h : a ≤ b) : 2 ^ a ≤ 2 ^ b :=
  Nat.pow_le_pow_right (by norm_num) h

theorem encode_line_spec (rle : List (Nat × Nat)) (hne : rle ≠ [])
    (hbound : ∀ p ∈ rle, 1 ≤ p.1 ∧ p.1 ≤ 65535 ∧ 1 ≤ p.2 ∧ p.2 ≤ 65535)
    (hsize : (benValBits rle + benLenBits rle) * rle.length < 2 ^ 32) :
    ∃ payload,
      encode_ben_vec_from_rle rle =
        some (benValBits rle :: benLenBits rle :: u32be (benNBytes rle) ++ payload) ∧
      payload.length = benNBytes rle ∧
      (∀ b ∈ payload, b < 256) ∧
      bytesToBits payload =
        fieldBits (benValBits rle) (benLenBits rle) rle ++
          List.replicate
            (8 * benNBytes rle - (benValBits rle + benLenBits rle) * rle.length) false ∧
      8 * benNBytes rle - (benValBits rle + benLenBits rle) * rle.length < 8 ∧
      (benValBits rle + benLenBits rle) * rle.length ≤ 8 * benNBytes rle ∧
      1 ≤ benValBits rle ∧ benValBits rle ≤ 16 ∧
      1 ≤ benLenBits rle ∧ benLenBits rle ≤ 16 := by
  have hmaxval : rleMaxVal rle ≤ 65535 := by
    apply foldl_max_le _ 0 (by norm_num)
    intro x hx
    obtain ⟨p, hp, rfl⟩ := List.mem_map.mp hx
    exact (hbound p hp).2.1
  have hmaxlen : rleMaxLen rle ≤ 65535 := by
    apply foldl_max_le _ 0 (by norm_num)
    intro x hx
    obtain ⟨p, hp, rfl⟩ := List.mem_map.mp hx
    exact (hbound p hp).2.2.2
  have hvb1 : 1 ≤ benValBits rle := le_max_right _ _
  have hvb16 : benValBits rle ≤ 16 := by
    rw [benValBits]
    have : u16Size (rleMaxVal rle) ≤ 16 :=
      sizeFuel_le (by omega : rleMaxVal rle < 2 ^ 16)
    omega
  have hmaxlen1 : 1 ≤ rleMaxLen rle := by
    obtain ⟨a, t, rfl⟩ := List.exists_cons_of_ne_nil hne
    have ha : a.2 ∈ (List.map Prod.snd (a :: t)) := by simp
    have := le_foldl_max ha 0
    have ha2 := (hbound a (List.mem_cons_self a t)).2.2.1
    exact le_trans ha2 this
  have hlb1 : 1 ≤ benLenBits rle :=
    sizeFuel_pos (by norm_num) (by omega)
  have hlb16 : benLenBits rle ≤ 16 :=
    sizeFuel_le (by omega : rleMaxLen rle < 2 ^ 16)
  have hmem : ∀ p ∈ rle, p.1 < 2 ^ benValBits rle ∧ p.2 < 2 ^ benLenBits rle := by
    intro p hp
    constructor
    · have h1 : p.1 ≤ rleMaxVal rle :=
        le_foldl_max (List.mem_map_of_mem Prod.fst hp) 0
      have h2 : rleMaxVal rle < 2 ^ u16Size (rleMaxVal rle) :=
        lt_two_pow_sizeFuel (by omega)
      have h3 : 2 ^ u16Size (rleMaxVal rle) ≤ 2 ^ benValBits rle :=
        pow_le_pow_right_two (le_max_left _ _)
      omega
    · have h1 : p.2 ≤ rleMaxLen rle :=
        le_foldl_max (List.mem_map_of_mem Prod.snd hp) 0
      have h2 : rleMaxLen rle < 2 ^ u16Size (rleMaxLen rle) :=
        lt_two_pow_sizeFuel (by omega)
      have h3 : 2 ^ u16Size (rleMaxLen rle) = 2 ^ benLenBits rle := rfl
      omega
  have hfold := encodeRun_foldl_spec hvb16 hlb16 rle ⟨[], 0, 0⟩
    (by norm_num) (by norm_num) hmem
  set st := rle.foldl (encodeRun (benValBits rle) (benLenBits rle)) ⟨[], 0, 0⟩ with hst
  obtain ⟨a1, a2, ⟨extra, hex, hexb⟩, a4, a5⟩ := hfold
  simp only [List.nil_append] at hex
  have houtb : ∀ b ∈ st.out, b < 256 := by rw [hex]; exact hexb
  have hT : benTotalBits rle = (benValBits rle + benLenBits rle) * rle.length :=
    Nat.mod_eq_of_lt hsize
  have ha4 : 8 * st.out.length + st.remainder_bits =
      (benValBits rle + benLenBits rle) * rle.length := by simpa using a4
  have ha5 : bytesToBits st.out ++ natToBits st.remainder_bits st.remainder =
      fieldBits (benValBits rle) (benLenBits rle) rle := by
    simpa [bytesToBits, natToBits] using a5
  rw [encode_ben_vec_from_rle, if_neg hne]
  have hrb8 : st.remainder_bits < 8 := a1
  by_cases hrb : 0 < st.remainder_bits
  · have hz : (st.remainder <<< (8 - st.remainder_bits)) % 256 =
        st.remainder * 2 ^ (8 - st.remainder_bits) := by
      rw [Nat.shiftLeft_eq]
      apply Nat.mod_eq_of_lt
      calc st.remainder * 2 ^ (8 - st.remainder_bits)
          < 2 ^ st.remainder_bits * 2 ^ (8 - st.remainder_bits) :=
            (Nat.mul_lt_mul_right (Nat.two_pow_pos _)).mpr a2
      _ = 2 ^ 8 := by rw [← pow_add]; congr 1; omega
    have hnb : benNBytes rle = st.out.length + 1 := by
      rw [benNBytes, hT, ← ha4, if_neg (by omega)]
      omega
    have hpad : 8 * benNBytes rle - (benValBits rle + benLenBits rle) * rle.length =
        8 - st.remainder_bits := by
      rw [hnb, ← ha4]
      omega
    refine ⟨st.out ++ [(st.remainder <<< (8 - st.remainder_bits)) % 256],
      by simp only [if_pos hrb], by simp [hnb], ?_, ?_, by omega, by rw [hnb, ← ha4]; omega,
      hvb1, hvb16, hlb1, hlb16⟩
    · intro b hb
      rcases List.mem_append.mp hb with hb | hb
      · exact houtb b hb
      · simp only [List.mem_singleton] at hb
        subst hb
        exact Nat.mod_lt _ (by norm_num)
    · have h8 : natToBits 8 (st.remainder * 2 ^ (8 - st.remainder_bits)) =
          natToBits st.remainder_bits st.remainder ++
            List.replicate (8 - st.remainder_bits) false := by
        have key := natToBits_add st.remainder_bits (8 - st.remainder_bits)
          (st.remainder * 2 ^ (8 - st.remainder_bits))
        rw [show st.remainder_bits + (8 - st.remainder_bits) = 8 by omega] at key
        rw [key]
        congr 1
        · congr 1
          exact Nat.mul_div_cancel st.remainder (Nat.two_pow_pos _)
        · rw [show natToBits (8 - st.remainder_bits)
              (st.remainder * 2 ^ (8 - st.remainder_bits)) =
              natToBits (8 - st.remainder_bits) 0 from
            natToBits_congr_mod (by simp [Nat.mul_mod_left]), natToBits_zero]
      rw [hpad, bytesToBits_append, hz]
      have hsingle : bytesToBits [st.remainder * 2 ^ (8 - st.remainder_bits)] =
          natToBits 8 (st.remainder * 2 ^ (8 - st.remainder_bits)) := by
        simp [bytesToBits, byteToBits]
      rw [hsingle, h8, ← List.append_assoc, ha5]
  · have hrb0 : st.remainder_bits = 0 := by omega
    have hnb : benNBytes rle = st.out.length := by
      rw [benNBytes, hT, ← ha4, hrb0, if_pos (by omega)]
      omega
    have hbits : bytesToBits st.out =
        fieldBits (benValBits rle) (benLenBits rle) rle := by
      rw [← ha5, hrb0]
      simp [natToBits]
    refine ⟨st.out, by simp [if_neg hrb], by simp [hnb], houtb, ?_,
      by rw [hnb, ← ha4]; omega, by rw [hnb, ← ha4]; omega,
      hvb1, hvb16, hlb1, hlb16⟩
    have hpad : 8 * benNBytes rle - (benValBits rle + benLenBits rle) * rle.length = 0 := by
      rw [hnb, ← ha4]
      omega
    rw [hpad, hbits]
    simp

/-! ## The BEN bit-unpacker (`decode_ben_line`)

Shared verbatim between `src/decode/mod.rs` (lines 348–427) and
`ben/src/decode/mod.rs` (lines 427–506).  `(byte as u32).to_be()` on a
little-endian host is `byte <<< 24`; `u32` shifts wrap modulo `2 ^ 32`.
-/

@[ext] structure DecSt where
  buffer : Nat
  nbits : Nat
  val : Nat
  val_set : Bool
  len : Nat
  len_set : Bool
  out : List (Nat × Nat)

def initDecSt : DecSt := ⟨0, 0, 0, false, 0, false, []⟩

/-- `if n_bits_in_buff >= max_val_bits as u16 && !val_set { .. }`. -/
def tryVal (max_val_bits : Nat) (st : DecSt) : DecSt :=
  if max_val_bits ≤ st.nbits ∧ st.val_set = false then
    { st with
        val := (st.buffer >>> (32 - max_val_bits)) % 2 ^ 16,
        buffer := (st.buffer <<< max_val_bits) % 2 ^ 32,
        nbits := st.nbits - max_val_bits,
        val_set := true }
  else st

/-- `if n_bits_in_buff >= max_len_bits as u16 && val_set && !len_set { .. }`. -/
def tryLen (max_len_bits : Nat) (st : DecSt) : DecSt :=
  if max_len_bits ≤ st.nbits ∧ st.val_set = true ∧ st.len_set = false then
    { st with
        len := (st.buffer >>> (32 - max_len_bits)) % 2 ^ 16,
        buffer := (st.buffer <<< max_len_bits) % 2 ^ 32,
        nbits := st.nbits - max_len_bits,
        len_set := true }
  else st

/-- `if val_set && len_set { if len > 0 { push }; reset flags }`. -/
def pushPair (st : DecSt) : DecSt :=
  if st.val_set = true ∧ st.len_set = true then
    { st with
        out := st.out ++ (if 0 < st.len then [(st.val, st.len)] else []),
        val_set := false,
        len_set := false }
  else st

/-- One attempt at extracting a (value, length) pair. -/
def extractStep (vb lb : Nat) (st : DecSt) : DecSt :=
  pushPair (tryLen lb (tryVal vb st))

/-- The inner `while n_bits_in_buff >= max_val_bits + max_len_bits` loop.
The fuel `32` bounds the loop: with `vb + lb ≥ 1` each iteration
consumes at least one bit of the at most 31 buffered bits. -/
def drainLoop (vb lb : Nat) : Nat → DecSt → DecSt
  | 0, st => st
  | fuel + 1, st =>
      if vb + lb ≤ st.nbits then drainLoop vb lb fuel (extractStep vb lb st)
      else st

/-- The body of `for (_, &byte) in assign_bits.iter().enumerate()`. -/
def byteStep (vb lb : Nat) (st : DecSt) (byte : Nat) : DecSt :=
  let st1 : DecSt :=
    { st with
        buffer := st.buffer ||| ((byte <<< 24) >>> st.nbits),
        nbits := st.nbits + 8 }
  drainLoop vb lb 32 (extractStep vb lb st1)

/-- `decode_ben_line`: read `n_bytes` payload bytes (EOF if the stream
is shorter) and run the shift-register loop over them; returns the
decoded run list together with the unread rest of the stream. -/
def decode_ben_line (stream : List Nat) (max_val_bits max_len_bits : Nat)
    (n_bytes : Nat) : Option (List (Nat × Nat) × List Nat) :=
  if n_bytes ≤ stream.length then
    some (((stream.take n_bytes).foldl (byteStep max_val_bits max_len_bits) initDecSt).out,
      stream.drop n_bytes)
  else none

example :
    (decode_ben_line [0x7B] 2 2 1).map Prod.fst = some [(1, 3), (2, 3)] := by decide

example :
    encode_ben_vec_from_rle [(1, 3), (2, 3)] = some [2, 2, 0, 0, 0, 1, 0x7B] := by decide

example :
    encode_ben_vec_from_rle [(1, 2), (2, 2), (1, 1), (2, 1)] =
      some [2, 2, 0, 0, 0, 2, 0x6A, 0x59] := by decide

/-! ## Specification view of the bit-unpacker

`specRuns vb lb bits` reads alternating `vb`-bit value and `lb`-bit
length fields from the front of `bits` while a full pair is available,
dropping pairs whose length field is zero — the reference meaning of
the decoder loop.  `resume` is the same reading when a value field has
already been consumed.
-/

def specRuns (vb lb : Nat) (bits : List Bool) : List (Nat × Nat) :=
  if h : 1 ≤ vb ∧ vb + lb ≤ bits.length then
    (if 0 < bitsToNat ((bits.drop vb).take lb)
      then [(bitsToNat (bits.take vb), bitsToNat ((bits.drop vb).take lb))] else []) ++
      specRuns vb lb (bits.drop (vb + lb))
  else []
termination_by bits.length
decreasing_by simp only [List.length_drop]; omega

def resume (vb lb : Nat) (val_set : Bool) (val : Nat) (bits : List Bool) :
    List (Nat × Nat) :=
  match val_set with
  | false => specRuns vb lb bits
  | true =>
      if lb ≤ bits.length then
        (if 0 < bitsToNat (bits.take lb) then [(val, bitsToNat (bits.take lb))] else []) ++
          specRuns vb lb (bits.drop lb)
      else []

theorem specRuns_short {vb lb : Nat} {bits : List Bool}
    (h : bits.length < vb + lb ∨ vb = 0) : specRuns vb lb bits = [] := by
  rw [specRuns, dif_neg]
  omega

theorem resume_false (vb lb : Nat) (v : Nat) (bits : List Bool) :
    resume vb lb false v bits = specRuns vb lb bits := rfl

theorem resume_true_short {vb lb : Nat} {v : Nat} {bits : List Bool}
    (h : bits.length < lb) : resume vb lb true v bits = [] := by
  rw [resume, if_neg (by omega)]

theorem resume_true_long {vb lb : Nat} {v : Nat} {bits : List Bool}
    (h : lb ≤ bits.length) :
    resume vb lb true v bits =
      (if 0 < bitsToNat (bits.take lb) then [(v, bitsToNat (bits.take lb))] else []) ++
        specRuns vb lb (bits.drop lb) := by
  rw [resume, if_pos h]

theorem specRuns_eq_resume {vb lb : Nat} (hvb : 1 ≤ vb) {bits : List Bool}
    (h : vb ≤ bits.length) :
    specRuns vb lb bits = resume vb lb true (bitsToNat (bits.take vb)) (bits.drop vb) := by
  by_cases hfull : vb + lb ≤ bits.length
  · rw [specRuns, dif_pos ⟨hvb, hfull⟩,
      resume_true_long (by simp only [List.length_drop]; omega)]
    have hdd : (bits.drop vb).drop lb = bits.drop (vb + lb) := by
      rw [List.drop_drop]
    rw [hdd]
  · rw [specRuns_short (by omega), resume_true_short (by simp only [List.length_drop]; omega)]

/-- The decoder's shift register holds the queued bits `Q` in the top
`Q.length` bits of the 32-bit `buffer`. -/
def QueueInv (st : DecSt) (Q : List Bool) : Prop :=
  st.nbits = Q.length ∧ Q.length ≤ 32 ∧
  st.buffer = bitsToNat Q * 2 ^ (32 - Q.length)

theorem bitsToNat_split {Q : List Bool} (w : Nat) (hw : w ≤ Q.length) :
    bitsToNat Q = bitsToNat (Q.take w) * 2 ^ (Q.length - w) + bitsToNat (Q.drop w) := by
  conv_lhs => rw [← List.take_append_drop w Q]
  rw [bitsToNat_append, List.length_drop]

theorem extract_field_top {Q : List Bool} {w : Nat}
    (hw : w ≤ Q.length) (hlen : Q.length ≤ 32) (hw16 : w ≤ 16) :
    (bitsToNat Q * 2 ^ (32 - Q.length)) >>> (32 - w) % 2 ^ 16 =
      bitsToNat (Q.take w) := by
  have hs := bitsToNat_split w hw
  have hdr : bitsToNat (Q.drop w) < 2 ^ (Q.length - w) := by
    have := bitsToNat_lt (Q.drop w)
    simpa [List.length_drop] using this
  have htk : bitsToNat (Q.take w) < 2 ^ w := by
    have := bitsToNat_lt (Q.take w)
    have hl : (Q.take w).length = w := by
      rw [List.length_take]
      omega
    rwa [hl] at this
  have hpow : 2 ^ (Q.length - w) * 2 ^ (32 - Q.length) = 2 ^ (32 - w) := by
    rw [← pow_add]
    congr 1
    omega
  have key : bitsToNat Q * 2 ^ (32 - Q.length) =
      2 ^ (32 - w) * bitsToNat (Q.take w) + bitsToNat (Q.drop w) * 2 ^ (32 - Q.length) := by
    rw [hs, Nat.add_mul, Nat.mul_assoc, hpow, Nat.mul_comm (bitsToNat (Q.take w))]
  have hlt : bitsToNat (Q.drop w) * 2 ^ (32 - Q.length) < 2 ^ (32 - w) := by
    rw [← hpow]
    exact (Nat.mul_lt_mul_right (Nat.two_pow_pos _)).mpr hdr
  rw [Nat.shiftRight_eq_div_pow, key, Nat.mul_add_div (Nat.two_pow_pos _),
    Nat.div_eq_of_lt hlt, Nat.add_zero]
  exact Nat.mod_eq_of_lt (lt_of_lt_of_le htk (pow_le_pow_right_two hw16))

theorem extract_field_shift {Q : List Bool} {w : Nat}
    (hw : w ≤ Q.length) (hlen : Q.length ≤ 32) :
    ((bitsToNat Q * 2 ^ (32 - Q.length)) <<< w) % 2 ^ 32 =
      bitsToNat (Q.drop w) * 2 ^ (32 - (Q.drop w).length) := by
  have hs := bitsToNat_split w hw
  have hdr : bitsToNat (Q.drop w) < 2 ^ (Q.length - w) := by
    have := bitsToNat_lt (Q.drop w)
    simpa [List.length_drop] using this
  have hpow2 : 2 ^ (Q.length - w) * 2 ^ (32 - (Q.length - w)) = 2 ^ 32 := by
    rw [← pow_add]
    congr 1
    omega
  have key : bitsToNat Q * 2 ^ (32 - Q.length) * 2 ^ w =
      2 ^ 32 * bitsToNat (Q.take w) +
        bitsToNat (Q.drop w) * 2 ^ (32 - (Q.length - w)) := by
    rw [hs, Nat.add_mul, Nat.add_mul]
    congr 1
    · rw [Nat.mul_assoc, Nat.mul_assoc, ← pow_add, ← pow_add,
        show Q.length - w + (32 - Q.length + w) = 32 by omega, Nat.mul_comm]
    · rw [Nat.mul_assoc, ← pow_add]
      congr 2
      omega
  have hlt : bitsToNat (Q.drop w) * 2 ^ (32 - (Q.length - w)) < 2 ^ 32 := by
    rw [← hpow2]
    exact (Nat.mul_lt_mul_right (Nat.two_pow_pos _)).mpr hdr
  rw [Nat.shiftLeft_eq, key, Nat.mul_add_mod, Nat.mod_eq_of_lt hlt, List.length_drop]

theorem tryVal_sim {vb : Nat} (hvb16 : vb ≤ 16) {st : DecSt} {Q : List Bool}
    (hinv : QueueInv st Q) (hfire : vb ≤ st.nbits) (hvs : st.val_set = false) :
    tryVal vb st =
      { st with
          val := bitsToNat (Q.take vb),
          buffer := bitsToNat (Q.drop vb) * 2 ^ (32 - (Q.drop vb).length),
          nbits := (Q.drop vb).length,
          val_set := true } := by
  obtain ⟨h1, h2, h3⟩ := hinv
  have hwQ : vb ≤ Q.length := by omega
  rw [tryVal, if_pos ⟨hfire, hvs⟩]
  ext
  · rw [h3]
    exact extract_field_shift hwQ h2
  · rw [h1, List.length_drop]
  · rw [h3]
    exact extract_field_top hwQ h2 hvb16
  all_goals rfl

theorem tryLen_sim {lb : Nat} (hlb16 : lb ≤ 16) {st : DecSt} {Q : List Bool}
    (hinv : QueueInv st Q) (hfire : lb ≤ st.nbits) (hvs : st.val_set = true)
    (hls : st.len_set = false) :
    tryLen lb st =
      { st with
          len := bitsToNat (Q.take lb),
          buffer := bitsToNat (Q.drop lb) * 2 ^ (32 - (Q.drop lb).length),
          nbits := (Q.drop lb).length,
          len_set := true } := by
  obtain ⟨h1, h2, h3⟩ := hinv
  have hwQ : lb ≤ Q.length := by omega
  rw [tryLen, if_pos ⟨hfire, hvs, hls⟩]
  ext
  · rw [h3]
    exact extract_field_shift hwQ h2
  · rw [h1, List.length_drop]
  · rfl
  · rfl
  · rw [h3]
    exact extract_field_top hwQ h2 hlb16
  · rfl
  · rfl

theorem tryVal_noop {vb : Nat} {st : DecSt}
    (h : st.val_set = true ∨ st.nbits < vb) : tryVal vb st = st := by
  rw [tryVal, if_neg]
  rintro ⟨h1, h2⟩
  rcases h with h | h
  · rw [h2] at h; cases h
  · omega

theorem tryLen_noop {lb : Nat} {st : DecSt}
    (h : st.val_set = false ∨ st.len_set = true ∨ st.nbits < lb) : tryLen lb st = st := by
  rw [tryLen, if_neg]
  rintro ⟨h1, h2, h3⟩
  rcases h with h | h | h
  · rw [h2] at h; cases h
  · rw [h3] at h; cases h
  · omega

theorem pushPair_noop {st : DecSt}
    (h : st.val_set = false ∨ st.len_set = false) : pushPair st = st := by
  rw [pushPair, if_neg]
  rintro ⟨h1, h2⟩
  rcases h with h | h
  · rw [h1] at h; cases h
  · rw [h2] at h; cases h

theorem pushPair_fire {st : DecSt} (h1 : st.val_set = true) (h2 : st.len_set = true) :
    pushPair st =
      { st with
          out := st.out ++ (if 0 < st.len then [(st.val, st.len)] else []),
          val_set := false, len_set := false } := by
  rw [pushPair, if_pos ⟨h1, h2⟩]

theorem specRuns_append_step {vb lb : Nat} (hvb1 : 1 ≤ vb) {Q rest : List Bool}
    (h : vb ≤ Q.length) :
    specRuns vb lb (Q ++ rest) =
      resume vb lb true (bitsToNat (Q.take vb)) (Q.drop vb ++ rest) := by
  rw [specRuns_eq_resume hvb1 (by simp only [List.length_append]; omega),
    List.take_append_of_le_length h, List.drop_append_of_le_length h]

theorem resume_append_step {vb lb : Nat} {v : Nat} {Q rest : List Bool}
    (h : lb ≤ Q.length) :
    resume vb lb true v (Q ++ rest) =
      (if 0 < bitsToNat (Q.take lb) then [(v, bitsToNat (Q.take lb))] else []) ++
        specRuns vb lb (Q.drop lb ++ rest) := by
  rw [resume_true_long (by simp only [List.length_append]; omega),
    List.take_append_of_le_length h, List.drop_append_of_le_length h]

theorem extractStep_sim {vb lb : Nat} (hvb1 : 1 ≤ vb) (hvb16 : vb ≤ 16)
    (hlb1 : 1 ≤ lb) (hlb16 : lb ≤ 16) {st : DecSt} {Q : List Bool}
    (hinv : QueueInv st Q) (hls : st.len_set = false) :
    ∃ k, k ≤ Q.length ∧
      QueueInv (extractStep vb lb st) (Q.drop k) ∧
      (extractStep vb lb st).len_set = false ∧
      ((extractStep vb lb st).val_set = true → (extractStep vb lb st).nbits < lb) ∧
      (∀ rest, (extractStep vb lb st).out ++
          resume vb lb (extractStep vb lb st).val_set (extractStep vb lb st).val
            (Q.drop k ++ rest) =
        st.out ++ resume vb lb st.val_set st.val (Q ++ rest)) ∧
      ((extractStep vb lb st = st ∧
          (st.val_set = false → st.nbits < vb) ∧ (st.val_set = true → st.nbits < lb)) ∨
        ((extractStep vb lb st).val_set = true ∧ st.val_set = false ∧
          (extractStep vb lb st).nbits + vb = st.nbits) ∨
        ((extractStep vb lb st).val_set = false ∧ st.val_set = false ∧
          (extractStep vb lb st).nbits + vb + lb = st.nbits) ∨
        ((extractStep vb lb st).val_set = false ∧ st.val_set = true ∧
          (extractStep vb lb st).nbits + lb = st.nbits)) := by
  obtain ⟨h1, h2, h3⟩ := hinv
  have hQd : ∀ m : Nat, (Q.drop m).length = Q.length - m := fun m => List.length_drop m Q
  cases hvs : st.val_set with
  | false =>
    by_cases hfv : vb ≤ st.nbits
    · have hv1 := tryVal_sim hvb16 ⟨h1, h2, h3⟩ hfv hvs
      by_cases hfl : lb ≤ Q.length - vb
      · -- a full (value, length) pair is extracted and pushed
        have hq1 : QueueInv (tryVal vb st) (Q.drop vb) := by
          rw [hv1]
          exact ⟨rfl, by rw [hQd]; omega, rfl⟩
        have hl1 := tryLen_sim hlb16 hq1
          (by rw [hv1]; show lb ≤ (Q.drop vb).length; rw [hQd]; omega)
          (by rw [hv1]) (by rw [hv1]; exact hls)
        have hes : extractStep vb lb st =
            { buffer := bitsToNat ((Q.drop vb).drop lb) *
                2 ^ (32 - ((Q.drop vb).drop lb).length),
              nbits := ((Q.drop vb).drop lb).length,
              val := bitsToNat (Q.take vb), val_set := false,
              len := bitsToNat ((Q.drop vb).take lb), len_set := false,
              out := st.out ++
                (if 0 < bitsToNat ((Q.drop vb).take lb)
                  then [(bitsToNat (Q.take vb), bitsToNat ((Q.drop vb).take lb))]
                  else []) } := by
          show pushPair (tryLen lb (tryVal vb st)) = _
          rw [hl1, hv1]
          rw [pushPair_fire (by rfl) (by rfl)]
        have hdd : (Q.drop vb).drop lb = Q.drop (vb + lb) := by rw [List.drop_drop]
        refine ⟨vb + lb, by omega, ?_, by rw [hes], by rw [hes]; simp, ?_, ?_⟩
        · rw [hes, hdd]
          exact ⟨rfl, by rw [hQd]; omega, rfl⟩
        · intro rest
          rw [hes]
          show st.out ++ _ ++ specRuns vb lb (Q.drop (vb + lb) ++ rest) = _
          have hr : resume vb lb false st.val (Q ++ rest) =
              (if 0 < bitsToNat ((Q.drop vb).take lb)
                then [(bitsToNat (Q.take vb), bitsToNat ((Q.drop vb).take lb))]
                else []) ++
                specRuns vb lb (Q.drop (vb + lb) ++ rest) := by
            rw [resume_false, specRuns_append_step hvb1 (by omega),
              resume_append_step (by rw [hQd]; omega), List.drop_drop]
          rw [hr, List.append_assoc]
        · right; right; left
          rw [hes, hdd]
          refine ⟨rfl, rfl, ?_⟩
          show (Q.drop (vb + lb)).length + vb + lb = st.nbits
          rw [hQd]
          omega
      · -- only the value field fits
        have hes : extractStep vb lb st = tryVal vb st := by
          show pushPair (tryLen lb (tryVal vb st)) = _
          rw [tryLen_noop (by
              rw [hv1]
              right; right
              show (Q.drop vb).length < lb
              rw [hQd]
              omega),
            pushPair_noop (by rw [hv1]; right; exact hls)]
        refine ⟨vb, by omega, ?_, by rw [hes, hv1]; exact hls, ?_, ?_, ?_⟩
        · rw [hes, hv1]
          exact ⟨rfl, by rw [hQd]; omega, rfl⟩
        · rw [hes, hv1]
          intro _
          show (Q.drop vb).length < lb
          rw [hQd]
          omega
        · intro rest
          rw [hes, hv1]
          show st.out ++ resume vb lb true (bitsToNat (Q.take vb)) (Q.drop vb ++ rest) = _
          rw [resume_false, specRuns_append_step hvb1 (by omega)]
        · right; left
          rw [hes, hv1]
          refine ⟨rfl, rfl, ?_⟩
          show (Q.drop vb).length + vb = st.nbits
          rw [hQd]
          omega
    · -- nothing fires
      have hes : extractStep vb lb st = st := by
        show pushPair (tryLen lb (tryVal vb st)) = _
        rw [tryVal_noop (by right; omega), tryLen_noop (by left; exact hvs),
          pushPair_noop (by left; exact hvs)]
      refine ⟨0, by omega, ?_, by rw [hes]; exact hls, ?_, ?_, ?_⟩
      · rw [hes, List.drop_zero]
        exact ⟨h1, h2, h3⟩
      · rw [hes, hvs]
        simp
      · intro rest
        rw [hes, List.drop_zero, hvs]
      · left
        exact ⟨hes, fun _ => by omega, by simp⟩
  | true =>
    by_cases hfl : lb ≤ st.nbits
    · -- the pending value gets its length field; the pair is pushed
      have hl1 := tryLen_sim hlb16 ⟨h1, h2, h3⟩ hfl hvs hls
      have hes : extractStep vb lb st =
          { buffer := bitsToNat (Q.drop lb) * 2 ^ (32 - (Q.drop lb).length),
            nbits := (Q.drop lb).length,
            val := st.val, val_set := false,
            len := bitsToNat (Q.take lb), len_set := false,
            out := st.out ++
              (if 0 < bitsToNat (Q.take lb)
                then [(st.val, bitsToNat (Q.take lb))] else []) } := by
        show pushPair (tryLen lb (tryVal vb st)) = _
        rw [tryVal_noop (by left; exact hvs), hl1]
        rw [pushPair_fire (by exact hvs) (by rfl)]
      refine ⟨lb, by omega, ?_, by rw [hes], by rw [hes]; simp, ?_, ?_⟩
      · rw [hes]
        exact ⟨rfl, by rw [hQd]; omega, rfl⟩
      · intro rest
        rw [hes]
        show st.out ++ _ ++ specRuns vb lb (Q.drop lb ++ rest) = _
        rw [resume_append_step (by omega), List.append_assoc]
      · right; right; right
        rw [hes]
        refine ⟨rfl, rfl, ?_⟩
        show (Q.drop lb).length + lb = st.nbits
        rw [hQd]
        omega
    · -- length does not fit yet
      have hes : extractStep vb lb st = st := by
        show pushPair (tryLen lb (tryVal vb st)) = _
        rw [tryVal_noop (by left; exact hvs), tryLen_noop (by right; right; omega),
          pushPair_noop (by right; exact hls)]
      refine ⟨0, by omega, ?_, by rw [hes]; exact hls, ?_, ?_, ?_⟩
      · rw [hes, List.drop_zero]
        exact ⟨h1, h2, h3⟩
      · rw [hes]
        intro _
        omega
      · intro rest
        rw [hes, List.drop_zero, hvs]
      · left
        exact ⟨hes, by simp, fun _ => by omega⟩

theorem drainLoop_sim {vb lb : Nat} (hvb1 : 1 ≤ vb) (hvb16 : vb ≤ 16)
    (hlb1 : 1 ≤ lb) (hlb16 : lb ≤ 16) :
    ∀ (fuel : Nat) (st : DecSt) (Q : List Bool),
      QueueInv st Q → st.len_set = false →
      (st.val_set = true → st.nbits < lb) →
      st.nbits ≤ fuel →
      ∃ k, k ≤ Q.length ∧
        QueueInv (drainLoop vb lb fuel st) (Q.drop k) ∧
        (drainLoop vb lb fuel st).len_set = false ∧
        ((drainLoop vb lb fuel st).val_set = true →
          (drainLoop vb lb fuel st).nbits < lb) ∧
        (drainLoop vb lb fuel st).nbits < vb + lb ∧
        (drainLoop vb lb fuel st = st ∨
          (drainLoop vb lb fuel st).nbits + vb + lb ≤ 32) ∧
        (∀ rest, (drainLoop vb lb fuel st).out ++
            resume vb lb (drainLoop vb lb fuel st).val_set
              (drainLoop vb lb fuel st).val (Q.drop k ++ rest) =
          st.out ++ resume vb lb st.val_set st.val (Q ++ rest)) := by
  intro fuel
  induction fuel with
  | zero =>
      intro st Q hq hls hvl hn
      refine ⟨0, by omega, ?_, ?_, ?_,
        by rw [show drainLoop vb lb 0 st = st from rfl]; omega, Or.inl rfl, ?_⟩ <;>
        rw [show drainLoop vb lb 0 st = st from rfl]
      · rw [List.drop_zero]; exact hq
      · exact hls
      · exact hvl
      · intro rest; rw [List.drop_zero]
  | succ fuel ih =>
      intro st Q hq hls hvl hn
      by_cases hguard : vb + lb ≤ st.nbits
      · have hvsf : st.val_set = false := by
          cases h : st.val_set
          · rfl
          · have := hvl h
            omega
        obtain ⟨k1, hk1, hq2, hls2, hvl2, habs2, hcase⟩ :=
          extractStep_sim hvb1 hvb16 hlb1 hlb16 hq hls
        have hpair : (extractStep vb lb st).val_set = false ∧
            (extractStep vb lb st).nbits + vb + lb = st.nbits := by
          rcases hcase with ⟨heq, hc1, _⟩ | ⟨_, _, hc⟩ | ⟨hv, _, hc⟩ | ⟨_, hc, _⟩
          · rw [heq] at *
            have := hc1 hvsf
            omega
          · exfalso
            have := hvl2 (by assumption)
            omega
          · exact ⟨hv, hc⟩
          · rw [hvsf] at hc
            cases hc
        have hn2 : (extractStep vb lb st).nbits ≤ fuel := by omega
        obtain ⟨k2, hk2, hq3, hls3, hvl3, hlt3, hor3, habs3⟩ :=
          ih (extractStep vb lb st) (Q.drop k1) hq2 hls2
            (by rw [hpair.1]; simp) hn2
        have hdl : drainLoop vb lb (fuel + 1) st =
            drainLoop vb lb fuel (extractStep vb lb st) := by
          rw [drainLoop, if_pos hguard]
        have hQlen : (Q.drop k1).length = Q.length - k1 := List.length_drop k1 Q
        refine ⟨k1 + k2, by omega, ?_, ?_, ?_, ?_, ?_, ?_⟩
        · rw [hdl, ← List.drop_drop]
          exact hq3
        · rw [hdl]; exact hls3
        · rw [hdl]; exact hvl3
        · rw [hdl]; exact hlt3
        · right
          rw [hdl]
          rcases hor3 with heq | hle
          · rw [heq, hpair.2]
            have : Q.length ≤ 32 := hq.2.1
            have : st.nbits = Q.length := hq.1
            omega
          · exact hle
        · intro rest
          rw [hdl, ← List.drop_drop]
          rw [habs3 rest, habs2 rest]
      · have hdl : drainLoop vb lb (fuel + 1) st = st := by
          rw [drainLoop, if_neg hguard]
        refine ⟨0, by omega, ?_, ?_, ?_, by rw [hdl]; omega, Or.inl hdl, ?_⟩ <;> rw [hdl]
        · rw [List.drop_zero]; exact hq
        · exact hls
        · exact hvl
        · intro rest; rw [List.drop_zero]

/-- Byte-boundary invariant of the decoder state. -/
def BoundInv (vb lb : Nat) (st : DecSt) : Prop :=
  st.len_set = false ∧ st.nbits ≤ 15 ∧
  (st.val_set = true → st.nbits < lb) ∧
  (st.val_set = false → st.nbits < vb + lb)

theorem pushByte_inv {st : DecSt} {Q : List Bool} (hq : QueueInv st Q)
    (hn : st.nbits ≤ 24) {byte : Nat} (hb : byte < 256) :
    QueueInv
      { st with
          buffer := st.buffer ||| ((byte <<< 24) >>> st.nbits),
          nbits := st.nbits + 8 } (Q ++ byteToBits byte) := by
  obtain ⟨h1, h2, h3⟩ := hq
  have hlen : (Q ++ byteToBits byte).length = Q.length + 8 := by simp
  refine ⟨?_, by rw [hlen]; omega, ?_⟩
  · show st.nbits + 8 = (Q ++ byteToBits byte).length
    rw [hlen]
    omega
  show st.buffer ||| ((byte <<< 24) >>> st.nbits) = _
  have hbb : bitsToNat (byteToBits byte) = byte := natToBits_of_lt hb
  have hsh : (byte <<< 24) >>> st.nbits = byte * 2 ^ (24 - st.nbits) := by
    rw [Nat.shiftLeft_eq, Nat.shiftRight_eq_div_pow]
    have hp : (2 : Nat) ^ 24 = 2 ^ (24 - st.nbits) * 2 ^ st.nbits := by
      rw [← pow_add]
      congr 1
      omega
    rw [hp, ← Nat.mul_assoc, Nat.mul_div_cancel _ (Nat.two_pow_pos st.nbits)]
  have hdisj : byte * 2 ^ (24 - st.nbits) < 2 ^ (32 - Q.length) := by
    have h8 : (2 : Nat) ^ 8 * 2 ^ (24 - st.nbits) = 2 ^ (32 - Q.length) := by
      rw [← pow_add]
      congr 1
      omega
    calc byte * 2 ^ (24 - st.nbits) < 2 ^ 8 * 2 ^ (24 - st.nbits) :=
          (Nat.mul_lt_mul_right (Nat.two_pow_pos _)).mpr hb
    _ = 2 ^ (32 - Q.length) := h8
  rw [h3, hsh, Nat.mul_comm (bitsToNat Q), ← Nat.mul_add_lt_is_or hdisj (bitsToNat Q)]
  rw [bitsToNat_append, hbb, length_byteToBits, hlen]
  have he : 32 - (Q.length + 8) = 24 - st.nbits := by omega
  have hfin : (2 : Nat) ^ (32 - Q.length) = 2 ^ 8 * 2 ^ (24 - st.nbits) := by
    rw [← pow_add]
    congr 1
    omega
  rw [he, Nat.add_mul, Nat.mul_assoc, ← hfin, Nat.mul_comm (bitsToNat Q)]

theorem byteStep_sim {vb lb : Nat} (hvb1 : 1 ≤ vb) (hvb16 : vb ≤ 16)
    (hlb1 : 1 ≤ lb) (hlb16 : lb ≤ 16) {st : DecSt} {Q : List Bool}
    (hq : QueueInv st Q) (hbi : BoundInv vb lb st) {byte : Nat} (hb : byte < 256) :
    ∃ k, k ≤ (Q ++ byteToBits byte).length ∧
      QueueInv (byteStep vb lb st byte) ((Q ++ byteToBits byte).drop k) ∧
      BoundInv vb lb (byteStep vb lb st byte) ∧
      (∀ rest, (byteStep vb lb st byte).out ++
          resume vb lb (byteStep vb lb st byte).val_set (byteStep vb lb st byte).val
            ((Q ++ byteToBits byte).drop k ++ rest) =
        st.out ++ resume vb lb st.val_set st.val ((Q ++ byteToBits byte) ++ rest)) := by
  obtain ⟨hls, hn15, hvt, hvf⟩ := hbi
  set st1 : DecSt :=
    { st with
        buffer := st.buffer ||| ((byte <<< 24) >>> st.nbits),
        nbits := st.nbits + 8 } with hst1
  have hq1 : QueueInv st1 (Q ++ byteToBits byte) := pushByte_inv hq (by omega) hb
  have hbs : byteStep vb lb st byte = drainLoop vb lb 32 (extractStep vb lb st1) := rfl
  obtain ⟨k1, hk1, hq2, hls2, hvl2, habs2, hcase2⟩ :=
    extractStep_sim hvb1 hvb16 hlb1 hlb16 hq1 (show st1.len_set = false from hls)
  have hn2le : (extractStep vb lb st1).nbits ≤ 32 := by
    have := hq2.1
    have := hq2.2.1
    omega
  obtain ⟨k2, hk2, hq3, hls3, hvl3, hlt3, hor3, habs3⟩ :=
    drainLoop_sim hvb1 hvb16 hlb1 hlb16 32 (extractStep vb lb st1)
      ((Q ++ byteToBits byte).drop k1) hq2 hls2 hvl2 hn2le
  have hn1 : st1.nbits = st.nbits + 8 := rfl
  have hlen1 : (Q ++ byteToBits byte).length = Q.length + 8 := by simp
  have hQl : st.nbits = Q.length := hq.1
  have hfinal15 : (drainLoop vb lb 32 (extractStep vb lb st1)).nbits ≤ 15 := by
    rcases hor3 with heq | hle
    · rw [heq]
      rcases hcase2 with ⟨heq2, hc1, hc2⟩ | ⟨hv2, _, hc⟩ | ⟨_, hv1f, hc⟩ | ⟨_, hv1t, hc⟩
      · rw [heq2]
        cases hv1 : st1.val_set
        · have := hc1 hv1
          omega
        · have := hc2 hv1
          have := hvt (show st.val_set = true from hv1)
          omega
      · have := hvl2 hv2
        omega
      · rw [heq] at hlt3
        omega
      · have := hvt (show st.val_set = true from hv1t)
        omega
    · omega
  refine ⟨k1 + k2, ?_, ?_, ⟨?_, ?_, ?_, ?_⟩, ?_⟩
  · have := List.length_drop k1 (Q ++ byteToBits byte)
    omega
  · rw [hbs, ← List.drop_drop]
    exact hq3
  · rw [hbs]; exact hls3
  · rw [hbs]; exact hfinal15
  · rw [hbs]; exact hvl3
  · rw [hbs]
    intro _
    exact hlt3
  · intro rest
    rw [hbs, ← List.drop_drop, habs3 rest, habs2 rest]

theorem foldl_byteStep_sim {vb lb : Nat} (hvb1 : 1 ≤ vb) (hvb16 : vb ≤ 16)
    (hlb1 : 1 ≤ lb) (hlb16 : lb ≤ 16) :
    ∀ (bytes : List Nat) (st : DecSt) (Q : List Bool),
      (∀ b ∈ bytes, b < 256) → QueueInv st Q → BoundInv vb lb st →
      ∃ Q2, QueueInv (bytes.foldl (byteStep vb lb) st) Q2 ∧
        BoundInv vb lb (bytes.foldl (byteStep vb lb) st) ∧
        ∀ rest, (bytes.foldl (byteStep vb lb) st).out ++
            resume vb lb (bytes.foldl (byteStep vb lb) st).val_set
              (bytes.foldl (byteStep vb lb) st).val (Q2 ++ rest) =
          st.out ++ resume vb lb st.val_set st.val (Q ++ (bytesToBits bytes ++ rest)) := by
  intro bytes
  induction bytes with
  | nil =>
      intro st Q hb hq hbi
      exact ⟨Q, hq, hbi, fun rest => by simp⟩
  | cons b t ih =>
      intro st Q hb hq hbi
      obtain ⟨k1, hk1, hq1, hbi1, habs1⟩ :=
        byteStep_sim hvb1 hvb16 hlb1 hlb16 hq hbi (hb b (List.mem_cons_self b t))
      obtain ⟨Q2, hq2, hbi2, habs2⟩ :=
        ih (byteStep vb lb st b) ((Q ++ byteToBits b).drop k1)
          (fun x hx => hb x (List.mem_cons_of_mem b hx)) hq1 hbi1
      refine ⟨Q2, by rw [List.foldl_cons]; exact hq2, by rw [List.foldl_cons]; exact hbi2, ?_⟩
      intro rest
      rw [List.foldl_cons, habs2 rest, habs1 (bytesToBits t ++ rest)]
      congr 1
      congr 1
      rw [bytesToBits_cons]
      simp [List.append_assoc]

theorem drop_replicate_false : ∀ (n m : Nat),
    (List.replicate m false).drop n = List.replicate (m - n) false := by
  intro n
  induction n with
  | zero => intro m; simp
  | succ n ih =>
      intro m
      cases m with
      | zero => simp
      | succ m =>
          rw [List.replicate_succ, List.drop_succ_cons, ih, Nat.succ_sub_succ]

theorem bitsToNat_replicate_false (m : Nat) :
    bitsToNat (List.replicate m false) = 0 := by
  induction m with
  | zero => rfl
  | succ m ih => rw [List.replicate_succ, bitsToNat_cons, ih]; simp

theorem take_replicate_false : ∀ (n m : Nat),
    (List.replicate m false).take n = List.replicate (min n m) false := by
  intro n
  induction n with
  | zero => intro m; simp
  | succ n ih =>
      intro m
      cases m with
      | zero => simp
      | succ m =>
          rw [List.replicate_succ, List.take_succ_cons, ih]
          rw [show min (n + 1) (m + 1) = min n m + 1 by omega, List.replicate_succ]

theorem specRuns_zeros {vb lb : Nat} (hvb1 : 1 ≤ vb) :
    ∀ m, specRuns vb lb (List.replicate m false) = [] := by
  intro m
  induction m using Nat.strong_induction_on with
  | _ m ih =>
    by_cases hg : vb + lb ≤ m
    · rw [specRuns, dif_pos ⟨hvb1, by simp [List.length_replicate]; omega⟩]
      rw [drop_replicate_false, take_replicate_false, bitsToNat_replicate_false]
      simp only [Nat.lt_irrefl, if_false, List.nil_append]
      rw [drop_replicate_false]
      exact ih (m - (vb + lb)) (by omega)
    · exact specRuns_short (by simp [List.length_replicate]; omega)

theorem specRuns_fieldBits {vb lb : Nat} (hvb1 : 1 ≤ vb) :
    ∀ (rle : List (Nat × Nat)) (pad : Nat),
      (∀ p ∈ rle, p.1 < 2 ^ vb ∧ 0 < p.2 ∧ p.2 < 2 ^ lb) →
      specRuns vb lb (fieldBits vb lb rle ++ List.replicate pad false) = rle := by
  intro rle
  induction rle with
  | nil =>
      intro pad _
      simp only [fieldBits_nil, List.nil_append]
      exact specRuns_zeros hvb1 pad
  | cons r t ih =>
      intro pad hmem
      obtain ⟨hv, hl0, hl⟩ := hmem r (List.mem_cons_self r t)
      have hshape : fieldBits vb lb (r :: t) ++ List.replicate pad false =
          (natToBits vb r.1 ++ natToBits lb r.2) ++
            (fieldBits vb lb t ++ List.replicate pad false) := by
        rw [fieldBits_cons]
        simp [List.append_assoc]
      rw [hshape]
      have hlenAB : (natToBits vb r.1 ++ natToBits lb r.2).length = vb + lb := by simp
      rw [specRuns, dif_pos ⟨hvb1, by rw [List.length_append, hlenAB]; omega⟩]
      have htake : ((natToBits vb r.1 ++ natToBits lb r.2) ++
          (fieldBits vb lb t ++ List.replicate pad false)).take vb = natToBits vb r.1 := by
        rw [List.append_assoc, List.take_append_of_le_length (by simp)]
        exact List.take_of_length_le (by simp)
      have hdrop : ((natToBits vb r.1 ++ natToBits lb r.2) ++
          (fieldBits vb lb t ++ List.replicate pad false)).drop vb =
          natToBits lb r.2 ++ (fieldBits vb lb t ++ List.replicate pad false) := by
        rw [List.append_assoc, List.drop_append_of_le_length (by simp)]
        rw [List.drop_of_length_le (by simp), List.nil_append]
      have htake2 : (((natToBits vb r.1 ++ natToBits lb r.2) ++
          (fieldBits vb lb t ++ List.replicate pad false)).drop vb).take lb =
          natToBits lb r.2 := by
        rw [hdrop, List.take_left' (by simp)]
      have hdrop2 : ((natToBits vb r.1 ++ natToBits lb r.2) ++
          (fieldBits vb lb t ++ List.replicate pad false)).drop (vb + lb) =
          fieldBits vb lb t ++ List.replicate pad false := by
        rw [List.drop_left' hlenAB]
      rw [htake, htake2, hdrop2, natToBits_of_lt hv, natToBits_of_lt hl, if_pos hl0]
      rw [ih pad (fun p hp => hmem p (List.mem_cons_of_mem r hp))]
      rfl

theorem rle_mem_bits (rle : List (Nat × Nat))
    (hbound : ∀ p ∈ rle, 1 ≤ p.1 ∧ p.1 ≤ 65535 ∧ 1 ≤ p.2 ∧ p.2 ≤ 65535) :
    ∀ p ∈ rle, p.1 < 2 ^ benValBits rle ∧ 0 < p.2 ∧ p.2 < 2 ^ benLenBits rle := by
  have hmaxval : rleMaxVal rle ≤ 65535 := by
    apply foldl_max_le _ 0 (by norm_num)
    intro x hx
    obtain ⟨p, hp, rfl⟩ := List.mem_map.mp hx
    exact (hbound p hp).2.1
  have hmaxlen : rleMaxLen rle ≤ 65535 := by
    apply foldl_max_le _ 0 (by norm_num)
    intro x hx
    obtain ⟨p, hp, rfl⟩ := List.mem_map.mp hx
    exact (hbound p hp).2.2.2
  intro p hp
  refine ⟨?_, (hbound p hp).2.2.1, ?_⟩
  · have h1 : p.1 ≤ rleMaxVal rle :=
      le_foldl_max (List.mem_map_of_mem Prod.fst hp) 0
    have h2 : rleMaxVal rle < 2 ^ u16Size (rleMaxVal rle) :=
      lt_two_pow_sizeFuel (by omega)
    have h3 : 2 ^ u16Size (rleMaxVal rle) ≤ 2 ^ benValBits rle :=
      pow_le_pow_right_two (le_max_left _ _)
    omega
  · have h1 : p.2 ≤ rleMaxLen rle :=
      le_foldl_max (List.mem_map_of_mem Prod.snd hp) 0
    have h2 : rleMaxLen rle < 2 ^ u16Size (rleMaxLen rle) :=
      lt_two_pow_sizeFuel (by omega)
    have h3 : 2 ^ u16Size (rleMaxLen rle) = 2 ^ benLenBits rle := rfl
    omega

theorem decode_ben_line_of_payload {vb lb : Nat} (hvb1 : 1 ≤ vb) (hvb16 : vb ≤ 16)
    (hlb1 : 1 ≤ lb) (hlb16 : lb ≤ 16) (payload rest : List Nat)
    (hbytes : ∀ b ∈ payload, b < 256) :
    decode_ben_line (payload ++ rest) vb lb payload.length =
      some (specRuns vb lb (bytesToBits payload), rest) := by
  rw [decode_ben_line, if_pos (by simp)]
  rw [List.take_left, List.drop_left]
  congr 1
  have hqi : QueueInv initDecSt [] := ⟨rfl, by simp, by simp [initDecSt, bitsToNat]⟩
  have hbi : BoundInv vb lb initDecSt :=
    ⟨rfl, by simp [initDecSt], by simp [initDecSt], by simp [initDecSt]; omega⟩
  obtain ⟨Q2, hq2, hbi2, habs⟩ :=
    foldl_byteStep_sim hvb1 hvb16 hlb1 hlb16 payload initDecSt [] hbytes hqi hbi
  have h0 := habs []
  simp only [List.append_nil, List.nil_append] at h0
  set stf := payload.foldl (byteStep vb lb) initDecSt with hstf
  have hres : resume vb lb stf.val_set stf.val Q2 = [] := by
    cases hv : stf.val_set
    · rw [resume_false]
      apply specRuns_short
      left
      have := hbi2.2.2.2 hv
      have := hq2.1
      omega
    · apply resume_true_short
      have := hbi2.2.2.1 hv
      have := hq2.1
      omega
  rw [hres, List.append_nil] at h0
  rw [Prod.mk.injEq]
  refine ⟨?_, rfl⟩
  rw [h0]
  rfl

theorem ben_line_roundtrip (rle : List (Nat × Nat)) (hne : rle ≠ [])
    (hbound : ∀ p ∈ rle, 1 ≤ p.1 ∧ p.1 ≤ 65535 ∧ 1 ≤ p.2 ∧ p.2 ≤ 65535)
    (hsize : (benValBits rle + benLenBits rle) * rle.length < 2 ^ 32) :
    ∃ payload,
      encode_ben_vec_from_rle rle =
        some (benValBits rle :: benLenBits rle :: u32be (benNBytes rle) ++ payload) ∧
      payload.length = benNBytes rle ∧
      (∀ b ∈ payload, b < 256) ∧
      ∀ rest, decode_ben_line (payload ++ rest) (benValBits rle) (benLenBits rle)
          (benNBytes rle) = some (rle, rest) := by
  obtain ⟨payload, henc, hlen, hbytes, hbits, hpadlt, hle, hvb1, hvb16, hlb1, hlb16⟩ :=
    encode_line_spec rle hne hbound hsize
  refine ⟨payload, henc, hlen, hbytes, ?_⟩
  intro rest
  have hdec := decode_ben_line_of_payload hvb1 hvb16 hlb1 hlb16 payload rest hbytes
  rw [hlen] at hdec
  rw [hdec]
  congr 2
  rw [hbits]
  exact specRuns_fieldBits hvb1 rle _ (rle_mem_bits rle hbound)

/-! ## RLE primitives (spec §4.1) and the BEN stream codec -/

inductive BenVariant
  | Standard
  | MkvChain
deriving DecidableEq

/-- Modelled from the spec: `assign_to_rle` lives in the repository's
`utils` module, which is not among the provided sources.  Spec §4.1:
"single left-to-right scan; each position starts a new run iff the value
differs from the previous or length reaches `2¹⁶−1`".  The accumulator
holds the run being built. -/
def assignRleGo : List Nat → Nat → Nat → List (Nat × Nat)
  | [], val, len => [(val, len)]
  | a :: t, val, len =>
      if a = val ∧ len < 65535 then assignRleGo t val (len + 1)
      else (val, len) :: assignRleGo t a 1

/-- Modelled from the spec: see `assignRleGo`. -/
def assign_to_rle : List Nat → List (Nat × Nat)
  | [] => []
  | a :: t => assignRleGo t a 1

/-- Modelled from the spec: `rle_to_vec` lives in the repository's
`utils` module, which is not among the provided sources.  Spec §4.1:
"expand each `(val,len)` into `len` copies of `val`". -/
def rle_to_vec (runs : List (Nat × Nat)) : List Nat :=
  runs.flatMap fun r => List.replicate r.2 r.1

@[simp] theorem rle_to_vec_nil : rle_to_vec [] = [] := rfl

@[simp] theorem rle_to_vec_cons (r : Nat × Nat) (t : List (Nat × Nat)) :
    rle_to_vec (r :: t) = List.replicate r.2 r.1 ++ rle_to_vec t := by
  simp [rle_to_vec]

theorem assignRleGo_expand :
    ∀ (t : List Nat) (val len : Nat),
      rle_to_vec (assignRleGo t val len) = List.replicate len val ++ t := by
  intro t
  induction t with
  | nil => intro val len; simp [assignRleGo]
  | cons a t ih =>
      intro val len
      rw [assignRleGo]
      by_cases h : a = val ∧ len < 65535
      · rw [if_pos h, ih]
        rw [List.replicate_succ' len val, h.1, List.append_assoc, List.singleton_append]
      · rw [if_neg h, rle_to_vec_cons, ih, List.replicate_one, List.singleton_append]

/-- Round-trip law of the RLE primitives (spec §4.1). -/
theorem rle_to_vec_assign_to_rle (v : List Nat) : rle_to_vec (assign_to_rle v) = v := by
  cases v with
  | nil => rfl
  | cons a t => rw [assign_to_rle, assignRleGo_expand, List.replicate_one, List.singleton_append]

theorem assignRleGo_bounds :
    ∀ (t : List Nat) (val len : Nat),
      (∀ x ∈ t, 1 ≤ x ∧ x ≤ 65535) → 1 ≤ val → val ≤ 65535 → 1 ≤ len → len ≤ 65535 →
      ∀ p ∈ assignRleGo t val len, 1 ≤ p.1 ∧ p.1 ≤ 65535 ∧ 1 ≤ p.2 ∧ p.2 ≤ 65535 := by
  intro t
  induction t with
  | nil =>
      intro val len _ h1 h2 h3 h4 p hp
      rw [assignRleGo, List.mem_singleton] at hp
      subst hp
      exact ⟨h1, h2, h3, h4⟩
  | cons a t ih =>
      intro val len hmem h1 h2 h3 h4 p hp
      rw [assignRleGo] at hp
      have hmem' : ∀ x ∈ t, 1 ≤ x ∧ x ≤ 65535 :=
        fun x hx => hmem x (List.mem_cons_of_mem a hx)
      have ha := hmem a (List.mem_cons_self a t)
      by_cases h : a = val ∧ len < 65535
      · rw [if_pos h] at hp
        exact ih val (len + 1) hmem' h1 h2 (by omega) (by omega) p hp
      · rw [if_neg h] at hp
        rcases List.mem_cons.mp hp with rfl | hp
        · exact ⟨h1, h2, h3, h4⟩
        · exact ih a 1 hmem' ha.1 ha.2 (by omega) (by omega) p hp

theorem assign_to_rle_bounds {v : List Nat} (hv : ∀ x ∈ v, 1 ≤ x ∧ x ≤ 65535) :
    ∀ p ∈ assign_to_rle v, 1 ≤ p.1 ∧ p.1 ≤ 65535 ∧ 1 ≤ p.2 ∧ p.2 ≤ 65535 := by
  cases v with
  | nil => intro p hp; cases hp
  | cons a t =>
      have ha := hv a (List.mem_cons_self a t)
      exact assignRleGo_bounds t a 1
        (fun x hx => hv x (List.mem_cons_of_mem a hx)) ha.1 ha.2 (by omega) (by omega)

theorem assignRleGo_length :
    ∀ (t : List Nat) (val len : Nat), (assignRleGo t val len).length ≤ t.length + 1 := by
  intro t
  induction t with
  | nil => intro val len; simp [assignRleGo]
  | cons a t ih =>
      intro val len
      rw [assignRleGo]
      by_cases h : a = val ∧ len < 65535
      · rw [if_pos h]
        have := ih val (len + 1)
        simp only [List.length_cons]
        omega
      · rw [if_neg h]
        have := ih a 1
        simp only [List.length_cons]
        omega

theorem assign_to_rle_length (v : List Nat) : (assign_to_rle v).length ≤ v.length := by
  cases v with
  | nil => simp [assign_to_rle]
  | cons a t =>
      have := assignRleGo_length t a 1
      simp only [assign_to_rle, List.length_cons]
      omega

theorem assignRleGo_ne_nil (t : List Nat) (val len : Nat) :
    assignRleGo t val len ≠ [] := by
  induction t generalizing val len with
  | nil => simp [assignRleGo]
  | cons a t ih =>
      rw [assignRleGo]
      by_cases h : a = val ∧ len < 65535
      · rw [if_pos h]; exact ih _ _
      · rw [if_neg h]; simp

theorem assign_to_rle_ne_nil {v : List Nat} (hv : v ≠ []) : assign_to_rle v ≠ [] := by
  cases v with
  | nil => cases hv rfl
  | cons a t => exact assignRleGo_ne_nil t a 1

/-- The 17-byte ASCII banner (`BenEncoder::new` / `BenDecoder::new`). -/
def banner : BenVariant → List Nat
  | .Standard => "STANDARD BEN FILE".data.map Char.toNat
  | .MkvChain => "MKVCHAIN BEN FILE".data.map Char.toNat

/-- The mutable fields of `BenEncoder` (`src/encode/mod.rs`, lines 88–93);
`out` stands for the bytes written to the sink after the banner. -/
structure BenEncSt where
  out : List Nat
  previous_sample : List Nat
  count : Nat

/-- `BenEncoder::write_rle` (`src/encode/mod.rs`, lines 117–139).
`none` models the panic inside `encode_ben_vec_from_rle`; the MkvChain
`self.count += 1` is 16-bit arithmetic, hence the `% 65536` (release
builds wrap; debug builds abort). -/
def write_rle (variant : BenVariant) (st : BenEncSt) (rle_vec : List (Nat × Nat)) :
    Option BenEncSt :=
  match encode_ben_vec_from_rle rle_vec with
  | none => none
  | some encoded =>
    match variant with
    | .Standard => some { st with out := st.out ++ encoded }
    | .MkvChain =>
        if encoded = st.previous_sample then
          some { st with count := (st.count + 1) % 65536 }
        else
          let flushed : List Nat :=
            if 0 < st.count then st.previous_sample ++ u16be st.count else []
          some { out := st.out ++ flushed, previous_sample := encoded, count := 1 }

/-- `BenEncoder::write_assignment`. -/
def write_assignment (variant : BenVariant) (st : BenEncSt) (assign_vec : List Nat) :
    Option BenEncSt :=
  write_rle variant st (assign_to_rle assign_vec)

/-- `impl Drop for BenEncoder` (`src/encode/mod.rs`, lines 162–173): flush
the held MkvChain group, then return all bytes written after the banner. -/
def benEncoderDrop (variant : BenVariant) (st : BenEncSt) : List Nat :=
  st.out ++
    (if variant = .MkvChain ∧ 0 < st.count
      then st.previous_sample ++ u16be st.count else [])

/-- Write each vector of `V` through a fresh `BenEncoder` and drop it:
the full byte stream produced, or `none` if any write panics. -/
def benEncodeStream (variant : BenVariant) (V : List (List Nat)) : Option (List Nat) :=
  (V.foldlM (write_assignment variant) ⟨[], [], 0⟩).map
    fun st => banner variant ++ benEncoderDrop variant st

/-- Big-endian value of a byte list (`u32::from_be_bytes` and
`u16::from_be_bytes` after `read_exact`). -/
def beVal (l : List Nat) : Nat := l.foldl (fun acc b => acc * 256 + b) 0

theorem beVal_u32be {x : Nat} (h : x < 2 ^ 32) : beVal (u32be x) = x := by
  simp only [u32be, beVal, List.foldl_cons, List.foldl_nil]
  omega

theorem beVal_u16be {x : Nat} (h : x < 2 ^ 16) : beVal (u16be x) = x := by
  simp only [u16be, beVal, List.foldl_cons, List.foldl_nil]
  omega

/-! ## The BEN stream decoder (`ben/src/decode/mod.rs`, `BenDecoder`) -/

inductive DecoderInitError
  | ioError
  | invalidFileFormat (bytes : List Nat)
deriving DecidableEq

/-- `BenDecoder::new` (`ben/src/decode/mod.rs`, lines 118–138): read the
17-byte banner and resolve the variant. -/
def BenDecoder_new (s : List Nat) : Except DecoderInitError (BenVariant × List Nat) :=
  if 17 ≤ s.length then
    if s.take 17 = banner .Standard then .ok (.Standard, s.drop 17)
    else if s.take 17 = banner .MkvChain then .ok (.MkvChain, s.drop 17)
    else .error (.invalidFileFormat (s.take 17))
  else .error .ioError

/-- The four ways one call to `BenDecoder::next` can end: `done` is
`None` (clean EOF on the first header byte); `rec` is `Some(Ok(..))`
with the unread rest of the stream; `ioError` is `Some(Err(e))` (EOF
inside the declared payload, from `decode_ben_line`'s `read_exact`);
`panicked` is an `.expect` abort (EOF on the later header bytes or on
the MkvChain repeat suffix). -/
inductive BenNext
  | done
  | record (assignment : List Nat) (count : Nat) (rest : List Nat)
  | ioError
  | panicked
deriving DecidableEq

/-- `impl Iterator for BenDecoder` (`ben/src/decode/mod.rs`, lines 164–207). -/
def benDecoderNext (variant : BenVariant) (s : List Nat) : BenNext :=
  match s with
  | [] => .done
  | max_val_bits :: rest =>
    match rest with
    | [] => .panicked
    | max_len_bits :: rest2 =>
      if 4 ≤ rest2.length then
        let n_bytes := beVal (rest2.take 4)
        match decode_ben_line (rest2.drop 4) max_val_bits max_len_bits n_bytes with
        | none => .ioError
        | some (output_rle, rest3) =>
          match variant with
          | .Standard => .record (rle_to_vec output_rle) 1 rest3
          | .MkvChain =>
            if 2 ≤ rest3.length then
              .record (rle_to_vec output_rle) (beVal (rest3.take 2)) (rest3.drop 2)
            else .panicked
      else .panicked

inductive StreamResult
  | ok (records : List (List Nat × Nat))
  | ioError
  | panicked
  | outOfFuel
deriving DecidableEq

/-- Iterate `BenDecoder::next` to exhaustion, collecting the records.
The fuel bounds the number of iterations; each successful record
consumes at least six bytes of the stream, so `s.length + 1` is always
enough. -/
def benDecodeGo (variant : BenVariant) : Nat → List Nat → StreamResult
  | 0, _ => .outOfFuel
  | fuel + 1, s =>
    match benDecoderNext variant s with
    | .done => .ok []
    | .ioError => .ioError
    | .panicked => .panicked
    | .record a c rest =>
      match benDecodeGo variant fuel rest with
      | .ok recs => .ok ((a, c) :: recs)
      | r => r

inductive BenStreamOut
  | initError (e : DecoderInitError)
  | records (variant : BenVariant) (r : StreamResult)
deriving DecidableEq

/-- Open a `BenDecoder` on `s` and iterate it to exhaustion. -/
def benDecodeStream (s : List Nat) : BenStreamOut :=
  match BenDecoder_new s with
  | .error e => .initError e
  | .ok (variant, rest) => .records variant (benDecodeGo variant (rest.length + 1) rest)

/-- The expansion performed by `BenDecoder::write_all_jsonl`
(`ben/src/decode/mod.rs`, lines 140–161): each `(assignment, count)`
record is written `count` times. -/
def expandRecords (recs : List (List Nat × Nat)) : List (List Nat) :=
  recs.flatMap fun r => List.replicate r.2 r.1

example :
    benDecodeStream (banner .Standard ++ [2, 2, 0, 0, 0, 1, 0x7B]) =
      .records .Standard (.ok [([1, 1, 1, 2, 2, 2], 1)]) := by decide

/-! ## Stream-level lemmas -/

/-- A well-formed assignment vector: non-empty, values in `[1, 2¹⁶−1]`,
and short enough that the `u32` bit-count in the encoder cannot
overflow. -/
def ValidAssign (v : List Nat) : Prop :=
  v ≠ [] ∧ (∀ x ∈ v, 1 ≤ x ∧ x ≤ 65535) ∧ v.length < 2 ^ 27

/-- The bytes `BenEncoder` writes for one assignment vector (header and
payload of `encode_ben_vec_from_rle`). -/
def benLineBytes (v : List Nat) : List Nat :=
  (encode_ben_vec_from_rle (assign_to_rle v)).getD []

theorem benNBytes_lt {rle : List (Nat × Nat)} : benNBytes rle < 2 ^ 32 := by
  have h1 : benTotalBits rle < 2 ^ 32 := Nat.mod_lt _ (by norm_num)
  have h2 : benTotalBits rle / 8 ≤ (2 ^ 32 - 1) / 8 := Nat.div_le_div_right (by omega)
  rw [benNBytes]
  split <;> omega

theorem benDecoderNext_cons_cons (variant : BenVariant) (a b : Nat) (rest2 : List Nat)
    (h4 : 4 ≤ rest2.length) :
    benDecoderNext variant (a :: b :: rest2) =
      match decode_ben_line (rest2.drop 4) a b (beVal (rest2.take 4)) with
      | none => .ioError
      | some (output_rle, rest3) =>
        match variant with
        | .Standard => .record (rle_to_vec output_rle) 1 rest3
        | .MkvChain =>
          if 2 ≤ rest3.length then
            .record (rle_to_vec output_rle) (beVal (rest3.take 2)) (rest3.drop 2)
          else .panicked := by
  rw [benDecoderNext]
  simp only [if_pos h4]

theorem benDecoderNext_standard {a b n : Nat} {body rest : List Nat}
    {rle : List (Nat × Nat)} (hn : n < 2 ^ 32)
    (hdec : decode_ben_line body a b n = some (rle, rest)) :
    benDecoderNext .Standard (a :: b :: (u32be n ++ body)) =
      .record (rle_to_vec rle) 1 rest := by
  rw [benDecoderNext_cons_cons _ _ _ _ (by simp [u32be])]
  rw [List.take_left' (by rfl), List.drop_left' (by rfl), beVal_u32be hn, hdec]

theorem benDecoderNext_mkv {a b n c : Nat} {body rest : List Nat}
    {rle : List (Nat × Nat)} (hn : n < 2 ^ 32) (hc : c < 2 ^ 16)
    (hdec : decode_ben_line body a b n = some (rle, u16be c ++ rest)) :
    benDecoderNext .MkvChain (a :: b :: (u32be n ++ body)) =
      .record (rle_to_vec rle) c rest := by
  rw [benDecoderNext_cons_cons _ _ _ _ (by simp [u32be])]
  rw [List.take_left' (by rfl), List.drop_left' (by rfl), beVal_u32be hn, hdec]
  have h2 : 2 ≤ (u16be c ++ rest).length := by simp [u16be]
  simp only [if_pos h2]
  rw [List.take_left' (by rfl), List.drop_left' (by rfl), beVal_u16be hc]

/-- One valid assignment vector, through the encoder and back through one
decoder step, in both variants. -/
theorem benLine_decode (v : List Nat) (hv : ValidAssign v) :
    encode_ben_vec_from_rle (assign_to_rle v) = some (benLineBytes v) ∧
    6 ≤ (benLineBytes v).length ∧
    (∀ rest, benDecoderNext .Standard (benLineBytes v ++ rest) = .record v 1 rest) ∧
    (∀ c rest, c < 2 ^ 16 →
      benDecoderNext .MkvChain (benLineBytes v ++ (u16be c ++ rest)) = .record v c rest) := by
  obtain ⟨hne, hbv, hlenv⟩ := hv
  have hne' := assign_to_rle_ne_nil hne
  have hbound := assign_to_rle_bounds hbv
  have hsize : (benValBits (assign_to_rle v) + benLenBits (assign_to_rle v)) *
      (assign_to_rle v).length < 2 ^ 32 := by
    have hmaxval : rleMaxVal (assign_to_rle v) ≤ 65535 := by
      apply foldl_max_le _ 0 (by norm_num)
      intro x hx
      obtain ⟨p, hp, rfl⟩ := List.mem_map.mp hx
      exact (hbound p hp).2.1
    have hmaxlen : rleMaxLen (assign_to_rle v) ≤ 65535 := by
      apply foldl_max_le _ 0 (by norm_num)
      intro x hx
      obtain ⟨p, hp, rfl⟩ := List.mem_map.mp hx
      exact (hbound p hp).2.2.2
    have hvb : benValBits (assign_to_rle v) ≤ 16 := by
      rw [benValBits]
      have : u16Size (rleMaxVal (assign_to_rle v)) ≤ 16 :=
        sizeFuel_le (by omega : rleMaxVal (assign_to_rle v) < 2 ^ 16)
      omega
    have hlb : benLenBits (assign_to_rle v) ≤ 16 :=
      sizeFuel_le (by omega : rleMaxLen (assign_to_rle v) < 2 ^ 16)
    have hrl := assign_to_rle_length v
    calc (benValBits (assign_to_rle v) + benLenBits (assign_to_rle v)) *
          (assign_to_rle v).length
        ≤ 32 * v.length := Nat.mul_le_mul (by omega) hrl
      _ < 32 * 2 ^ 27 := by omega
      _ = 2 ^ 32 := by norm_num
  obtain ⟨payload, henc, hplen, hpbytes, hdec⟩ := ben_line_roundtrip _ hne' hbound hsize
  have hline : benLineBytes v =
      benValBits (assign_to_rle v) :: benLenBits (assign_to_rle v) ::
        u32be (benNBytes (assign_to_rle v)) ++ payload := by
    rw [benLineBytes, henc]
    rfl
  refine ⟨by rw [henc, hline], by simp [hline, u32be], ?_, ?_⟩
  · intro rest
    rw [hline]
    have hassoc : (benValBits (assign_to_rle v) :: benLenBits (assign_to_rle v) ::
        u32be (benNBytes (assign_to_rle v)) ++ payload) ++ rest =
        benValBits (assign_to_rle v) :: benLenBits (assign_to_rle v) ::
          (u32be (benNBytes (assign_to_rle v)) ++ (payload ++ rest)) := by
      simp [List.append_assoc]
    rw [hassoc, benDecoderNext_standard benNBytes_lt (hdec rest),
      rle_to_vec_assign_to_rle]
  · intro c rest hc
    rw [hline]
    have hassoc : (benValBits (assign_to_rle v) :: benLenBits (assign_to_rle v) ::
        u32be (benNBytes (assign_to_rle v)) ++ payload) ++ (u16be c ++ rest) =
        benValBits (assign_to_rle v) :: benLenBits (assign_to_rle v) ::
          (u32be (benNBytes (assign_to_rle v)) ++ (payload ++ (u16be c ++ rest))) := by
      simp [List.append_assoc]
    rw [hassoc, benDecoderNext_mkv benNBytes_lt hc (hdec (u16be c ++ rest)),
      rle_to_vec_assign_to_rle]

theorem banner_length (vt : BenVariant) : (banner vt).length = 17 := by
  cases vt <;> rfl

theorem BenDecoder_new_banner (vt : BenVariant) (body : List Nat) :
    BenDecoder_new (banner vt ++ body) = .ok (vt, body) := by
  have h17 : 17 ≤ (banner vt ++ body).length := by
    rw [List.length_append, banner_length]
    omega
  have htake : (banner vt ++ body).take 17 = banner vt :=
    List.take_left' (banner_length vt)
  have hdrop : (banner vt ++ body).drop 17 = body :=
    List.drop_left' (banner_length vt)
  rw [BenDecoder_new, if_pos h17, htake, hdrop]
  cases vt
  · rw [if_pos rfl]
  · rw [if_neg (by decide), if_pos rfl]

theorem length_le_flatMap {α β : Type} (f : α → List β) (l : List α)
    (h : ∀ x ∈ l, f x ≠ []) : l.length ≤ (l.flatMap f).length := by
  induction l with
  | nil => simp
  | cons a t ih =>
      rw [List.flatMap_cons, List.length_append, List.length_cons]
      have ha : f a ≠ [] := h a (List.mem_cons_self a t)
      have h1 : 1 ≤ (f a).length := by
        cases hfa : f a with
        | nil => exact absurd hfa ha
        | cons x xs => simp
      have := ih fun x hx => h x (List.mem_cons_of_mem a hx)
      omega

theorem foldlM_write_standard (V : List (List Nat)) (hV : ∀ v ∈ V, ValidAssign v) :
    ∀ st : BenEncSt,
      V.foldlM (write_assignment .Standard) st =
        some { st with out := st.out ++ V.flatMap benLineBytes } := by
  induction V with
  | nil => intro st; simp [List.foldlM]
  | cons v t ih =>
      intro st
      have hv := hV v (List.mem_cons_self v t)
      obtain ⟨henc, _, _, _⟩ := benLine_decode v hv
      rw [List.foldlM_cons, write_assignment, write_rle, henc]
      simp only [Option.bind_eq_bind, Option.some_bind]
      rw [ih fun x hx => hV x (List.mem_cons_of_mem v hx)]
      simp [List.flatMap_cons, List.append_assoc]

theorem benEncodeStream_standard (V : List (List Nat)) (hV : ∀ v ∈ V, ValidAssign v) :
    benEncodeStream .Standard V =
      some (banner .Standard ++ V.flatMap benLineBytes) := by
  rw [benEncodeStream, foldlM_write_standard V hV]
  simp [benEncoderDrop, benEncoderDrop]

theorem benDecodeGo_standard (V : List (List Nat)) (hV : ∀ v ∈ V, ValidAssign v) :
    ∀ fuel, V.length + 1 ≤ fuel →
      benDecodeGo .Standard fuel (V.flatMap benLineBytes) =
        .ok (V.map fun v => (v, 1)) := by
  induction V with
  | nil =>
      intro fuel hfuel
      obtain ⟨f, rfl⟩ := Nat.exists_eq_succ_of_ne_zero (by omega : fuel ≠ 0)
      rw [List.flatMap_nil, benDecodeGo, benDecoderNext, List.map_nil]
  | cons v t ih =>
      intro fuel hfuel
      obtain ⟨f, rfl⟩ := Nat.exists_eq_succ_of_ne_zero (by omega : fuel ≠ 0)
      have hv := hV v (List.mem_cons_self v t)
      obtain ⟨_, _, hstep, _⟩ := benLine_decode v hv
      rw [List.flatMap_cons, benDecodeGo, hstep (t.flatMap benLineBytes)]
      dsimp only
      rw [ih (fun x hx => hV x (List.mem_cons_of_mem v hx)) f
        (by simpa using Nat.lt_succ_iff.mp hfuel)]
      rfl

theorem expandRecords_ones (V : List (List Nat)) :
    expandRecords (V.map fun v => (v, 1)) = V := by
  induction V with
  | nil => rfl
  | cons v t ih => simp [expandRecords, List.flatMap_cons] at ih ⊢; exact ih

theorem benLineBytes_ne_nil {v : List Nat} (hv : ValidAssign v) :
    benLineBytes v ≠ [] := by
  obtain ⟨_, hlen, _, _⟩ := benLine_decode v hv
  intro h
  rw [h] at hlen
  simp at hlen

/-- The Standard round trip, assembled. -/
theorem ben_stream_roundtrip_standard (V : List (List Nat))
    (hV : ∀ v ∈ V, ValidAssign v) :
    benEncodeStream .Standard V =
      some (banner .Standard ++ V.flatMap benLineBytes) ∧
    benDecodeStream (banner .Standard ++ V.flatMap benLineBytes) =
      .records .Standard (.ok (V.map fun v => (v, 1))) ∧
    expandRecords (V.map fun v => (v, 1)) = V := by
  refine ⟨benEncodeStream_standard V hV, ?_, expandRecords_ones V⟩
  rw [benDecodeStream, BenDecoder_new_banner]
  dsimp only
  rw [benDecodeGo_standard V hV _ ?_]
  have := length_le_flatMap benLineBytes V fun v hv => benLineBytes_ne_nil (hV v hv)
  omega

/-! ## MkvChain grouping

`BenEncoder` in the MkvChain variant holds back the latest encoded line
and a repeat count, flushing `previous_sample ++ count.to_be_bytes()` on
change of line (and on drop).  `groupRuns` names the maximal groups of
consecutive equal samples. -/

def groupRunsGo : List (List Nat) → List Nat → Nat → List (List Nat × Nat)
  | [], cur, cnt => [(cur, cnt)]
  | a :: t, cur, cnt =>
      if a = cur then groupRunsGo t cur (cnt + 1)
      else (cur, cnt) :: groupRunsGo t a 1

def groupRuns : List (List Nat) → List (List Nat × Nat)
  | [] => []
  | a :: t => groupRunsGo t a 1

theorem groupRunsGo_expand :
    ∀ (t : List (List Nat)) (cur : List Nat) (cnt : Nat),
      expandRecords (groupRunsGo t cur cnt) = List.replicate cnt cur ++ t := by
  intro t
  induction t with
  | nil => intro cur cnt; simp [groupRunsGo, expandRecords]
  | cons a t ih =>
      intro cur cnt
      rw [groupRunsGo]
      by_cases h : a = cur
      · rw [if_pos h, ih, h]
        rw [List.replicate_succ' cnt cur, List.append_assoc, List.singleton_append]
      · rw [if_neg h]
        simp only [expandRecords, List.flatMap_cons] at ih ⊢
        rw [ih, List.replicate_one, List.singleton_append]

theorem groupRunsGo_head_ge :
    ∀ (t : List (List Nat)) (cur : List Nat) (cnt : Nat),
      ∃ g ∈ groupRunsGo t cur cnt, cnt ≤ g.2 := by
  intro t
  induction t with
  | nil =>
      intro cur cnt
      exact ⟨(cur, cnt), by simp [groupRunsGo], le_refl _⟩
  | cons a t ih =>
      intro cur cnt
      rw [groupRunsGo]
      by_cases h : a = cur
      · rw [if_pos h]
        obtain ⟨g, hg, hge⟩ := ih cur (cnt + 1)
        exact ⟨g, hg, by omega⟩
      · rw [if_neg h]
        exact ⟨(cur, cnt), List.mem_cons_self _ _, le_refl _⟩

theorem groupRunsGo_mem_fst :
    ∀ (t : List (List Nat)) (cur : List Nat) (cnt : Nat),
      ∀ g ∈ groupRunsGo t cur cnt, g.1 = cur ∨ g.1 ∈ t := by
  intro t
  induction t with
  | nil =>
      intro cur cnt g hg
      rw [groupRunsGo, List.mem_singleton] at hg
      subst hg
      exact Or.inl rfl
  | cons a t ih =>
      intro cur cnt g hg
      rw [groupRunsGo] at hg
      by_cases h : a = cur
      · rw [if_pos h] at hg
        rcases ih cur (cnt + 1) g hg with h1 | h1
        · exact Or.inl h1
        · exact Or.inr (List.mem_cons_of_mem a h1)
      · rw [if_neg h] at hg
        rcases List.mem_cons.mp hg with rfl | hg
        · exact Or.inl rfl
        · rcases ih a 1 g hg with h1 | h1
          · exact Or.inr (h1 ▸ List.mem_cons_self a t)
          · exact Or.inr (List.mem_cons_of_mem a h1)

/-- `benLineBytes` is injective on valid vectors: the decoder recovers
the vector from the bytes. -/
theorem benLineBytes_injective {v w : List Nat}
    (hv : ValidAssign v) (hw : ValidAssign w)
    (h : benLineBytes v = benLineBytes w) : v = w := by
  obtain ⟨_, _, hstepv, _⟩ := benLine_decode v hv
  obtain ⟨_, _, hstepw, _⟩ := benLine_decode w hw
  have h1 := hstepv []
  have h2 := hstepw []
  rw [h] at h1
  rw [h1] at h2
  injection h2

theorem mkv_fold (t : List (List Nat)) :
    ∀ (cur : List Nat) (cnt : Nat) (st : BenEncSt),
      ValidAssign cur → (∀ v ∈ t, ValidAssign v) →
      st.previous_sample = benLineBytes cur → st.count = cnt → 1 ≤ cnt →
      (∀ g ∈ groupRunsGo t cur cnt, g.2 ≤ 65535) →
      (t.foldlM (write_assignment .MkvChain) st).map (benEncoderDrop .MkvChain) =
        some (st.out ++ (groupRunsGo t cur cnt).flatMap
          fun g => benLineBytes g.1 ++ u16be g.2) := by
  induction t with
  | nil =>
      intro cur cnt st hcur _ hprev hcnt h1 _
      simp only [List.foldlM_nil, groupRunsGo, List.flatMap_cons, List.flatMap_nil]
      show some (benEncoderDrop .MkvChain st) = _
      congr 1
      rw [benEncoderDrop, if_pos ⟨rfl, by omega⟩, hprev, hcnt]
      simp [List.append_assoc]
  | cons a t ih =>
      intro cur cnt st hcur hval hprev hcnt h1 hcap
      have ha := hval a (List.mem_cons_self a t)
      have hval' : ∀ v ∈ t, ValidAssign v := fun v hv => hval v (List.mem_cons_of_mem a hv)
      obtain ⟨henca, _, _, _⟩ := benLine_decode a ha
      rw [List.foldlM_cons, write_assignment, write_rle, henca]
      simp only [Option.bind_eq_bind, Option.some_bind]
      rw [groupRunsGo] at hcap ⊢
      by_cases h : a = cur
      · have heq : benLineBytes a = st.previous_sample := by rw [hprev, h]
        rw [if_pos heq, if_pos h] at *
        obtain ⟨g, hg, hge⟩ := groupRunsGo_head_ge t cur (cnt + 1)
        have hcnt1 : cnt + 1 ≤ 65535 := le_trans hge (hcap g hg)
        have hmod : (st.count + 1) % 65536 = cnt + 1 := by
          rw [hcnt]
          exact Nat.mod_eq_of_lt (by omega)
        have := ih cur (cnt + 1) { st with count := (st.count + 1) % 65536 }
          hcur hval' hprev hmod (by omega) hcap
        rw [Option.some_bind, this]
      · have hne : benLineBytes a ≠ st.previous_sample := by
          rw [hprev]
          intro hab
          exact h (benLineBytes_injective ha hcur hab)
        rw [if_neg hne, if_neg h] at *
        have hcap' : ∀ g ∈ groupRunsGo t a 1, g.2 ≤ 65535 :=
          fun g hg => hcap g (List.mem_cons_of_mem _ hg)
        have := ih a 1
          { out := st.out ++ (if 0 < st.count then st.previous_sample ++ u16be st.count
              else []),
            previous_sample := benLineBytes a, count := 1 }
          ha hval' rfl rfl (le_refl 1) hcap'
        rw [Option.some_bind, this]
        congr 1
        dsimp only
        rw [if_pos (by omega : 0 < st.count), hprev, hcnt, List.flatMap_cons]
        simp [List.append_assoc]

theorem benEncodeStream_mkv (V : List (List Nat)) (hne : V ≠ [])
    (hV : ∀ v ∈ V, ValidAssign v) (hcap : ∀ g ∈ groupRuns V, g.2 ≤ 65535) :
    benEncodeStream .MkvChain V =
      some (banner .MkvChain ++
        (groupRuns V).flatMap fun g => benLineBytes g.1 ++ u16be g.2) := by
  obtain ⟨v, t, rfl⟩ := List.exists_cons_of_ne_nil hne
  have hv := hV v (List.mem_cons_self v t)
  obtain ⟨henc, hlen, _, _⟩ := benLine_decode v hv
  have hne0 : benLineBytes v ≠ ([] : List Nat) := benLineBytes_ne_nil hv
  have hstep1 : write_assignment .MkvChain ⟨[], [], 0⟩ v =
      some ⟨[], benLineBytes v, 1⟩ := by
    rw [write_assignment, write_rle, henc]
    dsimp only
    rw [if_neg hne0]
    rfl
  have hcap' : ∀ g ∈ groupRunsGo t v 1, g.2 ≤ 65535 := by
    rw [groupRuns] at hcap; exact hcap
  have hfold := mkv_fold t v 1 ⟨[], benLineBytes v, 1⟩ hv
    (fun x hx => hV x (List.mem_cons_of_mem v hx)) rfl rfl (le_refl 1) hcap'
  cases hfd : t.foldlM (write_assignment .MkvChain) ⟨[], benLineBytes v, 1⟩ with
  | none => rw [hfd] at hfold; simp at hfold
  | some st2 =>
      rw [hfd] at hfold
      rw [benEncodeStream, List.foldlM_cons, hstep1]
      simp only [Option.bind_eq_bind, Option.some_bind]
      rw [hfd]
      have hdrop : benEncoderDrop .MkvChain st2 =
          (groupRunsGo t v 1).flatMap fun g => benLineBytes g.1 ++ u16be g.2 := by
        simpa using hfold
      rw [groupRuns]
      simp [hdrop]

theorem benDecodeGo_mkv (G : List (List Nat × Nat))
    (hG : ∀ g ∈ G, ValidAssign g.1 ∧ g.2 < 2 ^ 16) :
    ∀ fuel, G.length + 1 ≤ fuel →
      benDecodeGo .MkvChain fuel
          (G.flatMap fun g => benLineBytes g.1 ++ u16be g.2) = .ok G := by
  induction G with
  | nil =>
      intro fuel hfuel
      obtain ⟨f, rfl⟩ := Nat.exists_eq_succ_of_ne_zero (by omega : fuel ≠ 0)
      rw [List.flatMap_nil, benDecodeGo, benDecoderNext]
  | cons g t ih =>
      intro fuel hfuel
      obtain ⟨f, rfl⟩ := Nat.exists_eq_succ_of_ne_zero (by omega : fuel ≠ 0)
      obtain ⟨hgv, hgc⟩ := hG g (List.mem_cons_self g t)
      obtain ⟨_, _, _, hstep⟩ := benLine_decode g.1 hgv
      rw [List.flatMap_cons, benDecodeGo, List.append_assoc,
        hstep g.2 (t.flatMap fun g => benLineBytes g.1 ++ u16be g.2) hgc]
      dsimp only
      rw [ih (fun x hx => hG x (List.mem_cons_of_mem g hx)) f
        (by simpa using Nat.lt_succ_iff.mp hfuel)]

theorem groupRuns_expand (V : List (List Nat)) :
    expandRecords (groupRuns V) = V := by
  cases V with
  | nil => rfl
  | cons v t =>
      rw [groupRuns, groupRunsGo_expand, List.replicate_one, List.singleton_append]

theorem groupRuns_mem_fst {V : List (List Nat)} :
    ∀ g ∈ groupRuns V, g.1 ∈ V := by
  cases V with
  | nil => intro g hg; cases hg
  | cons v t =>
      intro g hg
      rw [groupRuns] at hg
      rcases groupRunsGo_mem_fst t v 1 g hg with h | h
      · exact h ▸ List.mem_cons_self v t
      · exact List.mem_cons_of_mem v h

/-- The MkvChain round trip, assembled: valid vectors whose maximal
groups of consecutive equal samples do not exceed `2¹⁶−1`. -/
theorem ben_stream_roundtrip_mkv (V : List (List Nat)) (hne : V ≠ [])
    (hV : ∀ v ∈ V, ValidAssign v) (hcap : ∀ g ∈ groupRuns V, g.2 ≤ 65535) :
    benEncodeStream .MkvChain V =
      some (banner .MkvChain ++
        (groupRuns V).flatMap fun g => benLineBytes g.1 ++ u16be g.2) ∧
    benDecodeStream (banner .MkvChain ++
        (groupRuns V).flatMap fun g => benLineBytes g.1 ++ u16be g.2) =
      .records .MkvChain (.ok (groupRuns V)) ∧
    expandRecords (groupRuns V) = V := by
  have hG : ∀ g ∈ groupRuns V, ValidAssign g.1 ∧ g.2 < 2 ^ 16 := by
    intro g hg
    exact ⟨hV g.1 (groupRuns_mem_fst g hg), by have := hcap g hg; omega⟩
  refine ⟨benEncodeStream_mkv V hne hV hcap, ?_, groupRuns_expand V⟩
  rw [benDecodeStream, BenDecoder_new_banner]
  dsimp only
  rw [benDecodeGo_mkv (groupRuns V) hG _ ?_]
  have : (groupRuns V).length ≤
      ((groupRuns V).flatMap fun g => benLineBytes g.1 ++ u16be g.2).length := by
    apply length_le_flatMap
    intro g hg
    have := benLineBytes_ne_nil (hG g hg).1
    cases h : benLineBytes g.1 with
    | nil => exact absurd h this
    | cons x xs => simp [h]
  omega

instance : ∀ v, Decidable (ValidAssign v) := fun v => by
  unfold ValidAssign
  infer_instance

/-- In the MkvChain variant, writing `n` further copies of a sample whose
encoding is already held just bumps the 16-bit count (`self.count += 1`
wraps — there is no saturation in the source). -/
theorem write_mkv_replicate (v enc : List Nat)
    (henc : encode_ben_vec_from_rle (assign_to_rle v) = some enc) :
    ∀ (n : Nat) (st : BenEncSt), st.previous_sample = enc → st.count < 65536 →
      (List.replicate n v).foldlM (write_assignment .MkvChain) st =
        some { st with count := (st.count + n) % 65536 } := by
  intro n
  induction n with
  | zero =>
      intro st hprev hlt
      rw [List.replicate_zero, List.foldlM_nil, Nat.add_zero, Nat.mod_eq_of_lt hlt]
      rfl
  | succ n ih =>
      intro st hprev hlt
      rw [List.replicate_succ, List.foldlM_cons, write_assignment, write_rle, henc]
      dsimp only
      rw [if_pos hprev.symm]
      simp only [Option.bind_eq_bind, Option.some_bind]
      rw [ih { st with count := (st.count + 1) % 65536 } hprev
        (Nat.mod_lt _ (by norm_num))]
      congr 2
      rw [Nat.mod_add_mod]
      congr 1
      omega

theorem write_first_mkv (v : List Nat) (hv : ValidAssign v) :
    write_assignment .MkvChain ⟨[], [], 0⟩ v = some ⟨[], benLineBytes v, 1⟩ := by
  obtain ⟨henc, _, _, _⟩ := benLine_decode v hv
  rw [write_assignment, write_rle, henc]
  dsimp only
  rw [if_neg (benLineBytes_ne_nil hv)]
  rfl

/-- Writing `n + 1` identical valid samples leaves the encoder holding
count `(1 + n) % 2¹⁶` with nothing yet written to the sink. -/
theorem mkv_identical_fold (v : List Nat) (hv : ValidAssign v) (n : Nat) :
    (List.replicate (n + 1) v).foldlM (write_assignment .MkvChain) ⟨[], [], 0⟩ =
      some ⟨[], benLineBytes v, (1 + n) % 65536⟩ := by
  obtain ⟨henc, _, _, _⟩ := benLine_decode v hv
  rw [List.replicate_succ, List.foldlM_cons, write_first_mkv v hv]
  simp only [Option.bind_eq_bind, Option.some_bind]
  rw [write_mkv_replicate v (benLineBytes v) henc n ⟨[], benLineBytes v, 1⟩ rfl
    (by norm_num : (1 : Nat) < 65536)]

/-- 65,536 identical samples: the 16-bit count wraps to zero and the
final flush writes nothing — the whole stream is lost. -/
theorem mkv_wrap_65536 (v : List Nat) (hv : ValidAssign v) :
    benEncodeStream .MkvChain (List.replicate 65536 v) = some (banner .MkvChain) := by
  rw [benEncodeStream,
    show (65536 : Nat) = 65535 + 1 from rfl, mkv_identical_fold v hv 65535]
  simp [benEncoderDrop]

/-- 65,535 identical samples: the count just fits and the drop flushes
one group. -/
theorem mkv_flush_65535 (v : List Nat) (hv : ValidAssign v) :
    benEncodeStream .MkvChain (List.replicate 65535 v) =
      some (banner .MkvChain ++ (benLineBytes v ++ u16be 65535)) := by
  rw [benEncodeStream,
    show (65535 : Nat) = 65534 + 1 from rfl, mkv_identical_fold v hv 65534]
  simp [benEncoderDrop]

/-! ## Claim theorems: round trip and encoder claims -/

/-- C1 (corrected): for every non-empty list `V` of valid assignment
vectors, writing `V` through `BenEncoder` (either variant, with the
final MkvChain group flushed by drop) and iterating `BenDecoder` over
the produced bytes yields, after expanding each `(assignment, count)`
record `count` times, exactly `V` — provided additionally that no
maximal group of consecutive equal samples exceeds `2¹⁶−1`, a condition
the claim omits and without which the MkvChain direction fails (the
16-bit count wraps; see the counterexample). -/
theorem C1_ben_roundtrip (V : List (List Nat)) (hne : V ≠ [])
    (hval : ∀ v ∈ V, ValidAssign v)
    (hcap : ∀ g ∈ groupRuns V, g.2 ≤ 65535) :
    (∃ s recs, benEncodeStream .Standard V = some s ∧
      benDecodeStream s = .records .Standard (.ok recs) ∧
      expandRecords recs = V) ∧
    (∃ s recs, benEncodeStream .MkvChain V = some s ∧
      benDecodeStream s = .records .MkvChain (.ok recs) ∧
      expandRecords recs = V) := by
  obtain ⟨he1, hd1, hx1⟩ := ben_stream_roundtrip_standard V hval
  obtain ⟨he2, hd2, hx2⟩ := ben_stream_roundtrip_mkv V hne hval hcap
  exact ⟨⟨_, _, he1, hd1, hx1⟩, ⟨_, _, he2, hd2, hx2⟩⟩

/-- Witness for C1 at `V = [[1, 1, 2], [3]]`. -/
theorem C1_ben_roundtrip_witness :
    (([[1, 1, 2], [3]] : List (List Nat)) ≠ [] ∧
      (∀ v ∈ ([[1, 1, 2], [3]] : List (List Nat)), ValidAssign v) ∧
      (∀ g ∈ groupRuns [[1, 1, 2], [3]], g.2 ≤ 65535)) ∧
    ((∃ s recs, benEncodeStream .Standard [[1, 1, 2], [3]] = some s ∧
      benDecodeStream s = .records .Standard (.ok recs) ∧
      expandRecords recs = [[1, 1, 2], [3]]) ∧
    (∃ s recs, benEncodeStream .MkvChain [[1, 1, 2], [3]] = some s ∧
      benDecodeStream s = .records .MkvChain (.ok recs) ∧
      expandRecords recs = [[1, 1, 2], [3]])) :=
  ⟨⟨by decide, by decide, by decide⟩,
    C1_ben_roundtrip [[1, 1, 2], [3]] (by decide) (by decide) (by decide)⟩

/-- C1 counterexample: 65,536 copies of the valid vector `[1]` — every
value in `[1, 2¹⁶−1]` — encode in the MkvChain variant to the bare
banner (the 16-bit repeat count wraps to zero, so the drop flush writes
nothing), and decoding the result yields no records at all, not the
original list. -/
theorem C1_counterexample :
    (List.replicate 65536 [1] : List (List Nat)) ≠ [] ∧
    (∀ v ∈ (List.replicate 65536 [1] : List (List Nat)),
      ∀ x ∈ v, 1 ≤ x ∧ x ≤ 65535) ∧
    benEncodeStream .MkvChain (List.replicate 65536 [1]) =
      some (banner .MkvChain) ∧
    benDecodeStream (banner .MkvChain) = .records .MkvChain (.ok []) ∧
    expandRecords [] ≠ (List.replicate 65536 [1] : List (List Nat)) := by
  refine ⟨?_, ?_, mkv_wrap_65536 [1] (by decide), by decide, ?_⟩
  · intro h
    have h1 := congrArg List.length h
    rw [List.length_replicate, List.length_nil] at h1
    exact absurd h1 (by decide)
  · intro v hv
    rw [List.mem_replicate] at hv
    rw [hv.2]
    decide
  · intro h
    have h1 := congrArg List.length h
    rw [List.length_replicate] at h1
    rw [show (expandRecords [] : List (List Nat)) = [] from rfl,
      List.length_nil] at h1
    exact absurd h1 (by decide)

/-- C6 (code bug): the MkvChain repeat count does not saturate at
`2¹⁶−1`.  `self.count += 1` is a wrapping 16-bit increment, so 65,535
identical samples produce one group with count 65,535, but 65,536
identical samples wrap the count to zero and the drop flush writes
nothing at all — the stream is silently lost instead of being split
into multiple groups whose counts sum to the number of samples. -/
theorem C6_count_wraps_not_saturates :
    benEncodeStream .MkvChain (List.replicate 65535 [1]) =
      some (banner .MkvChain ++ (benLineBytes [1] ++ u16be 65535)) ∧
    benEncodeStream .MkvChain (List.replicate 65536 [1]) =
      some (banner .MkvChain) ∧
    banner .MkvChain ++ (benLineBytes [1] ++ u16be 65535) ≠ banner .MkvChain :=
  ⟨mkv_flush_65535 [1] (by decide), mkv_wrap_65536 [1] (by decide), by decide⟩

/-- C8 (code bug): encoding the empty run list does not produce the
spec's canonical empty line `01 01 00 00 00 00`; the source calls
`.max_by_key(..).unwrap()` on the empty vector and panics (modelled as
`none`). -/
theorem C8_empty_rle_panics :
    encode_ben_vec_from_rle [] = none ∧
    encode_ben_vec_from_rle [] ≠
      some [0x01, 0x01, 0x00, 0x00, 0x00, 0x00] := by decide

/-- C9 (corrected): the single-sample input `[[1,1,1,2,2,2]]` encodes,
after the banner, to the seven bytes `02 02 00 00 00 01 7B` (runs
`(1,3),(2,3)` packed at 2+2 bits); the fifteen bytes the claim lists
are the encoding of the two-sample input `[[1,1,1,2,2,2],[1,1,2,2,1,2]]`. -/
theorem C9_s1_bytes :
    assign_to_rle [1, 1, 1, 2, 2, 2] = [(1, 3), (2, 3)] ∧
    benValBits [(1, 3), (2, 3)] = 2 ∧ benLenBits [(1, 3), (2, 3)] = 2 ∧
    benEncodeStream .Standard [[1, 1, 1, 2, 2, 2]] =
      some (banner .Standard ++ [0x02, 0x02, 0x00, 0x00, 0x00, 0x01, 0x7B]) ∧
    benEncodeStream .Standard [[1, 1, 1, 2, 2, 2], [1, 1, 2, 2, 1, 2]] =
      some (banner .Standard ++
        [0x02, 0x02, 0x00, 0x00, 0x00, 0x01, 0x7B,
         0x02, 0x02, 0x00, 0x00, 0x00, 0x02, 0x6A, 0x59]) := by decide

/-- C9 counterexample: the body bytes the claim lists for the
single-sample input are not what the encoder produces for it. -/
theorem C9_counterexample :
    benEncodeStream .Standard [[1, 1, 1, 2, 2, 2]] ≠
      some (banner .Standard ++
        [0x02, 0x02, 0x00, 0x00, 0x00, 0x01, 0x7B,
         0x02, 0x02, 0x00, 0x00, 0x00, 0x02, 0x6A, 0x59]) := by decide

/-! ## Truncation behaviour (`BenDecoder`, `XBenDecoder`) and banner rejection -/

/-- The xz magic number `FD 37 7A 58 5A 00`. -/
def xzMagic : List Nat := [0xFD, 0x37, 0x7A, 0x58, 0x5A, 0x00]

/-- `is_xz_header` (`ben/src/decode/mod.rs`, lines 40–42). -/
def is_xz_header (h : List Nat) : Bool :=
  decide (6 ≤ h.length) && decide (h.take 6 = xzMagic)

def hexDigit (n : Nat) : Char :=
  if n < 10 then Char.ofNat (48 + n) else Char.ofNat (55 + n)

/-- `to_hex` (`ben/src/decode/mod.rs`, lines 45–51): two uppercase hex
digits per byte, space-separated. -/
def to_hex (bytes : List Nat) : String :=
  String.intercalate (String.mk [' ']) (bytes.map fun b =>
    String.mk [hexDigit (b / 16 % 16), hexDigit (b % 16)])

/-- The `Display` text of `DecoderInitError::InvalidFileFormat` in the
xz-magic branch (`ben/src/decode/mod.rs`, lines 58–68); the other branch
(which quotes the header through `String::from_utf8_lossy`) is left
unmodelled (`none`). -/
def invalidFormatMessage (header : List Nat) : Option String :=
  if is_xz_header header then
    some ("Invalid file format: Compressed header detected (hex: " ++
      to_hex header ++
      "). This reader expects an uncompressed .ben file. Decompress this file using the BEN cli `ben -m decode <file_name>.xben` tool or the `decode_xben_to_ben` function in this library.")
  else none

/-- The scan loop of `pop_frame_from_overflow`
(`ben/src/decode/mod.rs`, lines 669–703): indices
`i = 3, 3 + step, 3 + 2*step, ...` below `stop`, looking for four zero
bytes at `overflow[i-3 ..= i]`.  Fuel-based for kernel evaluation;
`overflow.length` iterations always suffice. -/
def frameScan (overflow : List Nat) (step stop : Nat) : Nat → Nat → Option Nat
  | 0, _ => none
  | fuel + 1, i =>
      if i < stop then
        if (overflow.drop (i - 3)).take 4 = [0, 0, 0, 0] then some i
        else frameScan overflow step stop fuel (i + step)
      else none

/-- `XBenDecoder::pop_frame_from_overflow` (`ben/src/decode/mod.rs`,
lines 669–703): `some (frame, consumed, count)` when a complete frame
terminator is found in `overflow`. -/
def pop_frame_from_overflow (variant : BenVariant) (overflow : List Nat) :
    Option (List Nat × Nat × Nat) :=
  match variant with
  | .Standard =>
      if overflow.length < 4 then none
      else
        match frameScan overflow 4 overflow.length overflow.length 3 with
        | some i => some (overflow.take (i + 1), i + 1, 1)
        | none => none
  | .MkvChain =>
      if overflow.length < 6 then none
      else
        match frameScan overflow 2 (overflow.length - 2) overflow.length 3 with
        | some i =>
            some (overflow.take (i + 3), i + 3, beVal ((overflow.drop (i + 1)).take 2))
        | none => none

/-- What `XBenDecoder::next` (`ben/src/decode/mod.rs`, lines 709–743)
does once the decompressed source is exhausted (`read` returns `Ok(0)`):
pop a complete frame if one is buffered, else `None` on an empty
overflow, else the `UnexpectedEof` "truncated .xben stream" error.  The
xz decompression itself and `decode_ben32_line` are not modelled; the
`frame` constructor carries the popped frame unchanged. -/
inductive XBenEofNext
  | atEnd
  | truncatedError
  | frame (bytes : List Nat) (consumed count : Nat)
deriving DecidableEq

def xbenNextAtEof (variant : BenVariant) (overflow : List Nat) : XBenEofNext :=
  match pop_frame_from_overflow variant overflow with
  | some (f, c, n) => .frame f c n
  | none => if overflow = [] then .atEnd else .truncatedError

theorem infix_append_left {α : Type} {l m : List α} (p : List α)
    (h : List.IsInfix l m) : List.IsInfix l (p ++ m) := by
  obtain ⟨s, t, rfl⟩ := h
  exact ⟨p ++ s, t, by simp [List.append_assoc]⟩

/-- C4 (corrected): end-of-stream exactly at a sample boundary makes
`next` return `None`; end-of-stream inside the declared `n_bytes`
payload makes it return an error value; the XBEN reader at EOF returns
`None` on an empty overflow and the truncated-stream error on a
non-empty overflow holding no complete frame.  But end-of-stream in the
middle of the six-byte sample header does NOT produce an error value:
the source's `.expect` calls abort the process (see the
counterexample). -/
theorem C4_truncation (variant : BenVariant) (a b n : Nat)
    (body rest2 overflow : List Nat)
    (hn : n < 2 ^ 32) (hshort : body.length < n) (hr4 : rest2.length < 4)
    (hov : overflow ≠ []) (hnf : pop_frame_from_overflow variant overflow = none) :
    benDecoderNext variant [] = .done ∧
    benDecoderNext variant (a :: b :: (u32be n ++ body)) = .ioError ∧
    benDecoderNext variant [a] = .panicked ∧
    benDecoderNext variant (a :: b :: rest2) = .panicked ∧
    xbenNextAtEof variant [] = .atEnd ∧
    xbenNextAtEof variant overflow = .truncatedError := by
  refine ⟨rfl, ?_, rfl, ?_, ?_, ?_⟩
  · rw [benDecoderNext_cons_cons _ _ _ _ (by simp [u32be])]
    rw [List.take_left' (by rfl), List.drop_left' (by rfl), beVal_u32be hn]
    rw [decode_ben_line, if_neg (by omega)]
  · rw [benDecoderNext]
    simp only [if_neg (by omega : ¬4 ≤ rest2.length)]
  · cases variant <;> rfl
  · rw [xbenNextAtEof, hnf]
    dsimp only
    rw [if_neg hov]

/-- Witness for C4 at `variant = Standard`, a five-byte-payload header
followed by a single payload byte, a two-byte `rest2`, and the one-byte
overflow `[1]`. -/
theorem C4_truncation_witness :
    ((5 : Nat) < 2 ^ 32 ∧ ([0] : List Nat).length < 5 ∧
      ([7, 7] : List Nat).length < 4 ∧ ([1] : List Nat) ≠ [] ∧
      pop_frame_from_overflow .Standard [1] = none) ∧
    (benDecoderNext .Standard [] = .done ∧
    benDecoderNext .Standard (2 :: 2 :: (u32be 5 ++ [0])) = .ioError ∧
    benDecoderNext .Standard [2] = .panicked ∧
    benDecoderNext .Standard (2 :: 2 :: [7, 7]) = .panicked ∧
    xbenNextAtEof .Standard [] = .atEnd ∧
    xbenNextAtEof .Standard [1] = .truncatedError) :=
  ⟨⟨by decide, by decide, by decide, by decide, by decide⟩,
    C4_truncation .Standard 2 2 5 [0] [7, 7] [1]
      (by decide) (by decide) (by decide) (by decide) (by decide)⟩

/-- C4 counterexample: a Standard BEN stream that ends right after the
first header byte of a sample.  The claim says the reader returns a
TruncatedStream-style error value to the caller; the source instead
reaches `self.reader.read_u8().expect(..)` and aborts the process
(modelled `panicked`), which is neither normal termination nor an error
value. -/
theorem C4_counterexample :
    benDecodeStream (banner .Standard ++ [2]) =
      .records .Standard .panicked ∧
    StreamResult.panicked ≠ StreamResult.ioError ∧
    (.panicked : StreamResult) ≠ .ok [] := by decide

set_option maxRecDepth 100000 in
/-- C5: opening a `BenDecoder` on at least 17 bytes whose first 17 are
neither banner fails with `InvalidFileFormat` carrying exactly the 17
observed bytes, and when those bytes begin with the xz magic
`FD 37 7A 58 5A 00` the displayed message mentions the `.xben`
extension and the `decode_xben_to_ben` function. -/
theorem C5_banner_rejection (s : List Nat) (h17 : 17 ≤ s.length)
    (hns : s.take 17 ≠ banner .Standard) (hnm : s.take 17 ≠ banner .MkvChain) :
    BenDecoder_new s = .error (.invalidFileFormat (s.take 17)) ∧
    (is_xz_header (s.take 17) = true →
      ∃ msg, invalidFormatMessage (s.take 17) = some msg ∧
        List.IsInfix ".xben".data msg.data ∧
        List.IsInfix "decode_xben_to_ben".data msg.data) := by
  constructor
  · rw [BenDecoder_new, if_pos h17, if_neg hns, if_neg hnm]
  · intro hxz
    rw [invalidFormatMessage, if_pos hxz]
    refine ⟨_, rfl, ?_, ?_⟩
    all_goals
      rw [String.data_append]
      apply infix_append_left
      decide

/-- Witness for C5 on the 17-byte input starting with the xz magic. -/
theorem C5_banner_rejection_witness :
    (17 ≤ (xzMagic ++ List.replicate 11 0).length ∧
      (xzMagic ++ List.replicate 11 0).take 17 ≠ banner .Standard ∧
      (xzMagic ++ List.replicate 11 0).take 17 ≠ banner .MkvChain) ∧
    (BenDecoder_new (xzMagic ++ List.replicate 11 0) =
      .error (.invalidFileFormat ((xzMagic ++ List.replicate 11 0).take 17)) ∧
    (is_xz_header ((xzMagic ++ List.replicate 11 0).take 17) = true →
      ∃ msg, invalidFormatMessage ((xzMagic ++ List.replicate 11 0).take 17) =
          some msg ∧
        List.IsInfix ".xben".data msg.data ∧
        List.IsInfix "decode_xben_to_ben".data msg.data)) :=
  ⟨⟨by decide, by decide, by decide⟩,
    C5_banner_rejection (xzMagic ++ List.replicate 11 0)
      (by decide) (by decide) (by decide)⟩

/-! ## Random access: `extract_assignment_ben` (`src/decode/read.rs`) -/

inductive SampleErrorKind
  | invalidSampleNumber
  | sampleNotFound (sample_number : Nat)
  | ioError
  | jsonError
deriving DecidableEq

inductive ExtractResult
  | ok (assignment : List Nat)
  | err (kind : SampleErrorKind)
  | outOfFuel
deriving DecidableEq

/-- The sample loop of `extract_assignment_ben` (`src/decode/read.rs`,
lines 157–193).  EOF at the first header byte is
`SampleNotFound { r_sample }`; EOF inside the header or the payload
surfaces as an IO error through `?` (no `.expect` here, unlike
`BenDecoder`).  At the target sample the source re-wraps the bytes into
a one-sample BEN stream and decodes it through `jsonl_decode_ben` and
`serde_json`; the JSON detour is the identity on the assignment, so it
is modelled as `decode_ben_line` then `rle_to_vec`.  Fuel-based:
`stream length + 1` iterations always suffice, each sample consuming at
least six bytes. -/
def extractGo : Nat → List Nat → Nat → Nat → ExtractResult
  | 0, _, _, _ => .outOfFuel
  | fuel + 1, s, target, r_sample =>
    match s with
    | [] => .err (.sampleNotFound r_sample)
    | max_val_bits :: rest =>
      match rest with
      | [] => .err .ioError
      | max_len_bits :: rest2 =>
        if 4 ≤ rest2.length then
          let n := beVal (rest2.take 4)
          let rest3 := rest2.drop 4
          if n ≤ rest3.length then
            if r_sample = target then
              match decode_ben_line (rest3.take n) max_val_bits max_len_bits n with
              | some (rle, _) => .ok (rle_to_vec rle)
              | none => .err .ioError
            else extractGo fuel (rest3.drop n) target (r_sample + 1)
          else .err .ioError
        else .err .ioError

/-- `extract_assignment_ben` (`src/decode/read.rs`, lines 134–205). -/
def extract_assignment_ben (s : List Nat) (sample_number : Nat) : ExtractResult :=
  if sample_number = 0 then .err .invalidSampleNumber
  else if s.length < 17 then .err .ioError
  else if s.take 17 = banner .Standard then
    extractGo (s.length + 1) (s.drop 17) sample_number 1
  else .err .ioError

theorem assign_to_rle_size_bound {v : List Nat} (hv : ValidAssign v) :
    (benValBits (assign_to_rle v) + benLenBits (assign_to_rle v)) *
      (assign_to_rle v).length < 2 ^ 32 := by
  obtain ⟨hne, hbv, hlenv⟩ := hv
  have hbound := assign_to_rle_bounds hbv
  have hmaxval : rleMaxVal (assign_to_rle v) ≤ 65535 := by
    apply foldl_max_le _ 0 (by norm_num)
    intro x hx
    obtain ⟨p, hp, rfl⟩ := List.mem_map.mp hx
    exact (hbound p hp).2.1
  have hmaxlen : rleMaxLen (assign_to_rle v) ≤ 65535 := by
    apply foldl_max_le _ 0 (by norm_num)
    intro x hx
    obtain ⟨p, hp, rfl⟩ := List.mem_map.mp hx
    exact (hbound p hp).2.2.2
  have hvb : benValBits (assign_to_rle v) ≤ 16 := by
    rw [benValBits]
    have : u16Size (rleMaxVal (assign_to_rle v)) ≤ 16 :=
      sizeFuel_le (by omega : rleMaxVal (assign_to_rle v) < 2 ^ 16)
    omega
  have hlb : benLenBits (assign_to_rle v) ≤ 16 :=
    sizeFuel_le (by omega : rleMaxLen (assign_to_rle v) < 2 ^ 16)
  have hrl := assign_to_rle_length v
  calc (benValBits (assign_to_rle v) + benLenBits (assign_to_rle v)) *
        (assign_to_rle v).length
      ≤ 32 * v.length := Nat.mul_le_mul (by omega) hrl
    _ < 32 * 2 ^ 27 := by omega
    _ = 2 ^ 32 := by norm_num

/-- The anatomy of one encoded line: header bytes, payload of the
declared length, and the decode equation. -/
theorem benLineBytes_anatomy (v : List Nat) (hv : ValidAssign v) :
    ∃ a b n payload,
      benLineBytes v = a :: b :: (u32be n ++ payload) ∧
      n < 2 ^ 32 ∧ payload.length = n ∧
      ∀ rest, decode_ben_line (payload ++ rest) a b n =
        some (assign_to_rle v, rest) := by
  obtain ⟨payload, henc, hplen, _, hdec⟩ :=
    ben_line_roundtrip (assign_to_rle v) (assign_to_rle_ne_nil hv.1)
      (assign_to_rle_bounds hv.2.1) (assign_to_rle_size_bound hv)
  refine ⟨benValBits (assign_to_rle v), benLenBits (assign_to_rle v),
    benNBytes (assign_to_rle v), payload, ?_, benNBytes_lt, hplen, hdec⟩
  rw [benLineBytes, henc]
  rfl

theorem extractGo_flatMap (V : List (List Nat)) (hV : ∀ v ∈ V, ValidAssign v) :
    ∀ (i r fuel : Nat), i < V.length → V.length ≤ fuel →
      extractGo fuel (V.flatMap benLineBytes) (r + i) r = .ok (V.getD i []) := by
  induction V with
  | nil => intro i r fuel hi _; cases hi
  | cons v t ih =>
      intro i r fuel hi hfuel
      obtain ⟨f, rfl⟩ := Nat.exists_eq_succ_of_ne_zero (by omega : fuel ≠ 0)
      obtain ⟨a, b, n, payload, hline, hn, hplen, hdec⟩ :=
        benLineBytes_anatomy v (hV v (List.mem_cons_self v t))
      have hassoc : (v :: t).flatMap benLineBytes =
          a :: b :: (u32be n ++ (payload ++ t.flatMap benLineBytes)) := by
        rw [List.flatMap_cons, hline]
        simp [List.append_assoc]
      rw [hassoc, extractGo]
      have h4 : 4 ≤ (u32be n ++ (payload ++ t.flatMap benLineBytes)).length := by
        simp [u32be]
      rw [if_pos h4, List.take_left' (by rfl), List.drop_left' (by rfl),
        beVal_u32be hn]
      have hnle : n ≤ (payload ++ t.flatMap benLineBytes).length := by
        rw [List.length_append, hplen]
        omega
      rw [if_pos hnle, List.take_left' hplen, List.drop_left' hplen]
      cases i with
      | zero =>
          rw [if_pos (by omega : r = r + 0)]
          have := hdec []
          rw [List.append_nil] at this
          rw [this]
          dsimp only
          rw [rle_to_vec_assign_to_rle]
          rfl
      | succ i' =>
          rw [if_neg (by omega : ¬r = r + (i' + 1))]
          have hr : r + (i' + 1) = (r + 1) + i' := by omega
          rw [hr, ih (fun x hx => hV x (List.mem_cons_of_mem v hx)) i' (r + 1) f
            (by simpa using Nat.lt_succ_iff.mp hi)
            (by simpa using Nat.lt_succ_iff.mp hfuel)]
          rfl

theorem extractGo_past_end (V : List (List Nat)) (hV : ∀ v ∈ V, ValidAssign v) :
    ∀ (r fuel target : Nat), V.length + 1 ≤ fuel → r + V.length ≤ target →
      extractGo fuel (V.flatMap benLineBytes) target r =
        .err (.sampleNotFound (r + V.length)) := by
  induction V with
  | nil =>
      intro r fuel target hfuel _
      obtain ⟨f, rfl⟩ := Nat.exists_eq_succ_of_ne_zero (by omega : fuel ≠ 0)
      rw [List.flatMap_nil, extractGo]
      rfl
  | cons v t ih =>
      intro r fuel target hfuel htgt
      obtain ⟨f, rfl⟩ := Nat.exists_eq_succ_of_ne_zero (by omega : fuel ≠ 0)
      obtain ⟨a, b, n, payload, hline, hn, hplen, _⟩ :=
        benLineBytes_anatomy v (hV v (List.mem_cons_self v t))
      have hassoc : (v :: t).flatMap benLineBytes =
          a :: b :: (u32be n ++ (payload ++ t.flatMap benLineBytes)) := by
        rw [List.flatMap_cons, hline]
        simp [List.append_assoc]
      rw [hassoc, extractGo]
      have h4 : 4 ≤ (u32be n ++ (payload ++ t.flatMap benLineBytes)).length := by
        simp [u32be]
      rw [if_pos h4, List.take_left' (by rfl), List.drop_left' (by rfl),
        beVal_u32be hn]
      have hnle : n ≤ (payload ++ t.flatMap benLineBytes).length := by
        rw [List.length_append, hplen]
        omega
      rw [if_pos hnle, List.drop_left' hplen]
      have hlen : (v :: t).length = t.length + 1 := rfl
      rw [if_neg (by rw [hlen] at htgt; omega : ¬r = target)]
      rw [ih (fun x hx => hV x (List.mem_cons_of_mem v hx)) (r + 1) f target
        (by rw [hlen] at hfuel; omega) (by rw [hlen] at htgt; omega)]
      congr 1
      rw [hlen]
      congr 1
      omega

/-- C2: for every list of valid assignment vectors encoded as a Standard
BEN stream and every `1 ≤ n ≤ |V|`, `extract_assignment_ben` returns
`V[n−1]`; samples before the n-th are skipped by reading the six header
bytes and the declared `n_bytes` payload bytes only (in the model,
`extractGo` drops exactly those bytes on non-target samples and invokes
the bit-unpacker only on the target). -/
theorem C2_extract_nth (V : List (List Nat)) (n : Nat)
    (hV : ∀ v ∈ V, ValidAssign v) (h1 : 1 ≤ n) (hn : n ≤ V.length) :
    ∃ s, benEncodeStream .Standard V = some s ∧
      extract_assignment_ben s n = .ok (V.getD (n - 1) []) := by
  refine ⟨_, benEncodeStream_standard V hV, ?_⟩
  have hvl : V.length ≤ (V.flatMap benLineBytes).length :=
    length_le_flatMap benLineBytes V fun v hv => benLineBytes_ne_nil (hV v hv)
  have hlen : (banner .Standard ++ V.flatMap benLineBytes).length =
      17 + (V.flatMap benLineBytes).length := by
    rw [List.length_append, banner_length]
  rw [extract_assignment_ben, if_neg (by omega), if_neg (by omega),
    if_pos (List.take_left' (banner_length .Standard)),
    List.drop_left' (banner_length .Standard)]
  have hstep := extractGo_flatMap V hV (n - 1) 1
    ((banner .Standard ++ V.flatMap benLineBytes).length + 1)
    (by omega) (by omega)
  rw [show 1 + (n - 1) = n from by omega] at hstep
  exact hstep

/-- Witness for C2 at `V = [[1], [2, 2]]`, `n = 2`. -/
theorem C2_extract_nth_witness :
    ((∀ v ∈ ([[1], [2, 2]] : List (List Nat)), ValidAssign v) ∧
      1 ≤ 2 ∧ 2 ≤ ([[1], [2, 2]] : List (List Nat)).length) ∧
    ∃ s, benEncodeStream .Standard [[1], [2, 2]] = some s ∧
      extract_assignment_ben s 2 = .ok ([[1], [2, 2]].getD (2 - 1) []) :=
  ⟨⟨by decide, by decide, by decide⟩,
    C2_extract_nth [[1], [2, 2]] 2 (by decide) (by decide) (by decide)⟩

/-- C7 (code bug): `extract_assignment_ben` with `sample_number = 0`
returns `InvalidSampleNumber` on every input, as claimed; but with
`sample_number = |V| + 1` on a well-formed Standard stream of `|V|`
samples it returns `SampleNotFound` reporting `|V| + 1`, not the last
sample number `|V|` that the claim (and the error type's own
documentation) promises: `r_sample` has already been incremented past
the last sample when EOF is seen. -/
theorem C7_sample_errors (V : List (List Nat)) (hV : ∀ v ∈ V, ValidAssign v) :
    (∀ s, extract_assignment_ben s 0 = .err .invalidSampleNumber) ∧
    ∃ s, benEncodeStream .Standard V = some s ∧
      extract_assignment_ben s (V.length + 1) =
        .err (.sampleNotFound (V.length + 1)) := by
  constructor
  · intro s
    rw [extract_assignment_ben, if_pos rfl]
  · refine ⟨_, benEncodeStream_standard V hV, ?_⟩
    have hvl : V.length ≤ (V.flatMap benLineBytes).length :=
      length_le_flatMap benLineBytes V fun v hv => benLineBytes_ne_nil (hV v hv)
    have hlen : (banner .Standard ++ V.flatMap benLineBytes).length =
        17 + (V.flatMap benLineBytes).length := by
      rw [List.length_append, banner_length]
    rw [extract_assignment_ben, if_neg (by omega), if_neg (by omega),
      if_pos (List.take_left' (banner_length .Standard)),
      List.drop_left' (banner_length .Standard)]
    have hstep := extractGo_past_end V hV 1
      ((banner .Standard ++ V.flatMap benLineBytes).length + 1) (V.length + 1)
      (by omega) (by omega)
    rw [show 1 + V.length = V.length + 1 from by omega] at hstep
    exact hstep

/-- Witness for C7 at `V = [[1]]`: the reported last sample is 2, one
past the single sample the stream holds. -/
theorem C7_sample_errors_witness :
    (∀ v ∈ ([[1]] : List (List Nat)), ValidAssign v) ∧
    ((∀ s, extract_assignment_ben s 0 = .err .invalidSampleNumber) ∧
    ∃ s, benEncodeStream .Standard [[1]] = some s ∧
      extract_assignment_ben s (([[1]] : List (List Nat)).length + 1) =
        .err (.sampleNotFound (([[1]] : List (List Nat)).length + 1))) :=
  ⟨by decide, C7_sample_errors [[1]] (by decide)⟩

/-! ## Subsampling: `Selection` and `SubsampleDecoder`
(`ben/src/decode/mod.rs`, lines 745–916) -/

/-- `Selection` (`ben/src/decode/mod.rs`, lines 746–750).  `Indices`
holds the remaining items of the peekable iterator; `Range` is the
inclusive 1-based `[start, end]` (the `end` field is called `stop`
here, `end` being reserved in Lean). -/
inductive Selection
  | Indices (remaining : List Nat)
  | Every (step offset : Nat)
  | Range (start stop : Nat)
deriving DecidableEq

/-- The `Selection::Indices` loop of `count_selected_in`
(`ben/src/decode/mod.rs`, lines 838–854): skip below `lo`, stop above
`hi`, consume and count in between, saturating at `u16::MAX`. -/
def indicesCount : List Nat → Nat → Nat → Nat → Nat × List Nat
  | [], _, _, taken => (taken, [])
  | x :: rest, lo, hi, taken =>
      if x < lo then indicesCount rest lo hi taken
      else if hi < x then (taken, x :: rest)
      else indicesCount rest lo hi (min (taken + 1) 65535)

/-- `SubsampleDecoder::count_selected_in` (`ben/src/decode/mod.rs`,
lines 837–878).  Returns the count and the selection state after the
call (only `Indices` mutates).  The `as u16` casts on the `Every` and
`Range` arithmetic are `% 2¹⁶`. -/
def countSelectedIn (sel : Selection) (lo hi : Nat) : Nat × Selection :=
  match sel with
  | .Indices l =>
      let p := indicesCount l lo hi 0
      (p.1, .Indices p.2)
  | .Every step offset =>
      let start := max lo offset
      if hi < start then (0, sel)
      else
        let r := (start - offset) % step
        let first := start + (step - r) % step
        if hi < first then (0, sel)
        else ((1 + (hi - first) / step) % 65536, sel)
  | .Range start stop =>
      if hi < start ∨ stop < lo then (0, sel)
      else ((min hi stop - max lo start + 1) % 65536, sel)

/-- The `Range` early-stop test at the top of
`SubsampleDecoder::next` (`ben/src/decode/mod.rs`, lines 894–898). -/
def rangeStop (sel : Selection) (sample : Nat) : Bool :=
  match sel with
  | .Range _ stop => stop ≤ sample
  | _ => false

theorem rangeStop_every (step offset sample : Nat) :
    rangeStop (.Every step offset) sample = false := rfl

theorem rangeStop_indices (l : List Nat) (sample : Nat) :
    rangeStop (.Indices l) sample = false := rfl

/-- `impl Iterator for SubsampleDecoder` (`ben/src/decode/mod.rs`,
lines 887–916), iterated to exhaustion over a record list: each inner
record advances the global counter from `sample` to `hi = sample +
count` regardless, and is emitted as `(assignment, selected)` exactly
when `selected > 0`. -/
def subsampleRun : Selection → Nat → List (List Nat × Nat) → List (List Nat × Nat)
  | _, _, [] => []
  | sel, sample, r :: rest =>
      if rangeStop sel sample then []
      else
        let hi := sample + r.2
        let p := countSelectedIn sel (sample + 1) hi
        if 0 < p.1 then (r.1, p.1) :: subsampleRun p.2 hi rest
        else subsampleRun p.2 hi rest

/-- `SubsampleDecoder::by_indices` (`ben/src/decode/mod.rs`, lines
788–792): sort, deduplicate, then select by indices.  `sort_unstable`
is modelled by `mergeSort` (the sorted result is unique) and `dedup`
(removal of consecutive duplicates) by `dedupConsec`. -/
def dedupConsec : List Nat → List Nat
  | [] => []
  | [x] => [x]
  | x :: y :: rest =>
      if x = y then dedupConsec (y :: rest) else x :: dedupConsec (y :: rest)

def by_indices_selection (indices : List Nat) : Selection :=
  .Indices (dedupConsec (indices.mergeSort (fun a b => decide (a ≤ b))))

/-- Membership in the selected index set `S` — the specification's
reading of a `Selection` (spec §9): listed indices; `offset, offset +
step, offset + 2·step, ...`; the inclusive range. -/
def selMem (sel : Selection) (i : Nat) : Bool :=
  match sel with
  | .Indices l => l.contains i
  | .Every step offset => decide (offset ≤ i) && decide ((i - offset) % step = 0)
  | .Range start stop => decide (start ≤ i) && decide (i ≤ stop)

/-- `|S ∩ [lo, hi]|`, the specification's selected count. -/
def selCount (sel : Selection) (lo hi : Nat) : Nat :=
  ((List.range' lo (hi + 1 - lo)).filter (selMem sel)).length

/-- The specification's output (spec §9): one record per upstream
record whose interval meets `S`, carrying `|S ∩ [lo, hi]|`, in stream
order; the global counter advances by every record's count. -/
def specOutput (sel : Selection) : Nat → List (List Nat × Nat) → List (List Nat × Nat)
  | _, [] => []
  | sample, r :: rest =>
      let hi := sample + r.2
      let k := selCount sel (sample + 1) hi
      if 0 < k then (r.1, k) :: specOutput sel hi rest
      else specOutput sel hi rest

/-- Well-formedness, as the claim assumes it: `Indices` sorted
strictly ascending (hence unique) and 1-based; `Every` with `step ≥ 1`
and `offset ≥ 1`; `Range` with `1 ≤ start ≤ end`. -/
def SelWF : Selection → Prop
  | .Indices l => List.Pairwise (· < ·) l ∧ ∀ i ∈ l, 1 ≤ i
  | .Every step offset => 1 ≤ step ∧ 1 ≤ offset
  | .Range start stop => 1 ≤ start ∧ start ≤ stop

/-! ### Interval counting: a telescoping lemma and its instances -/

theorem filter_range'_telescope (p : Nat → Bool) (E : Nat → Nat)
    (hstep : ∀ x, E (x + 1) = E x + if p x then 1 else 0) :
    ∀ (n lo : Nat), ((List.range' lo n).filter p).length = E (lo + n) - E lo := by
  have hmono : ∀ (m x : Nat), E x ≤ E (x + m) := by
    intro m
    induction m with
    | zero => intro x; rw [Nat.add_zero]
    | succ m ih =>
        intro x
        have h1 := ih x
        have h2 := hstep (x + m)
        have : x + (m + 1) = (x + m) + 1 := by omega
        rw [this, h2]
        split <;> omega
  intro n
  induction n with
  | zero => intro lo; simp
  | succ n ih =>
      intro lo
      rw [List.range'_succ, List.filter_cons]
      have h1 := hstep lo
      have h2 := ih (lo + 1)
      have h3 := hmono n (lo + 1)
      have h4 : lo + (n + 1) = (lo + 1) + n := by omega
      cases hp : p lo with
      | true =>
          rw [hp, if_pos rfl] at h1
          rw [if_pos rfl, List.length_cons, h2, h4]
          omega
      | false =>
          rw [hp, if_neg (by simp)] at h1
          rw [if_neg (by simp), h2, h4]
          omega

/-- Selected indices of `Every step offset` below `x`. -/
def progCount (step offset x : Nat) : Nat :=
  if x ≤ offset then 0 else (x - 1 - offset) / step + 1

theorem progCount_step (step offset : Nat) (hs : 1 ≤ step) (x : Nat) :
    progCount step offset (x + 1) =
      progCount step offset x +
        if selMem (.Every step offset) x then 1 else 0 := by
  rw [progCount, progCount, selMem]
  by_cases h1 : x < offset
  · rw [if_pos (by omega), if_pos (by omega),
      if_neg (by simp; omega)]
  · by_cases h2 : x = offset
    · subst h2
      rw [if_neg (by omega), if_pos (by omega)]
      rw [if_pos (by simp)]
      simp [Nat.sub_self]
    · have hlt : offset < x := by omega
      rw [if_neg (by omega), if_neg (by omega)]
      have hx : x + 1 - 1 - offset = (x - 1 - offset) + 1 := by omega
      rw [hx, Nat.succ_div]
      have hdvd : (step ∣ x - 1 - offset + 1) ↔ (x - offset) % step = 0 := by
        rw [show x - 1 - offset + 1 = x - offset from by omega]
        rw [Nat.dvd_iff_mod_eq_zero]
      by_cases h3 : (x - offset) % step = 0
      · rw [if_pos (hdvd.mpr h3), if_pos (by simp; omega)]
      · rw [if_neg (fun hd => h3 (hdvd.mp hd)), if_neg (by simp; omega)]

theorem selCount_every (step offset lo hi : Nat) (hs : 1 ≤ step) (hlh : lo ≤ hi + 1) :
    selCount (.Every step offset) lo hi =
      progCount step offset (hi + 1) - progCount step offset lo := by
  rw [selCount, filter_range'_telescope _ _ (progCount_step step offset hs)]
  rw [show lo + (hi + 1 - lo) = hi + 1 from by omega]

/-- The runtime `first` index is offset plus the next multiple of
`step` past `lo - 1 - offset`. -/
theorem every_first_eq (step offset lo : Nat) (hs : 1 ≤ step) (hlt : offset < lo) :
    lo + (step - (lo - offset) % step) % step =
      offset + ((lo - 1 - offset) / step + 1) * step := by
  obtain ⟨q, r, hqr, hrlt⟩ : ∃ q r, lo - 1 - offset = q * step + r ∧ r < step :=
    ⟨(lo - 1 - offset) / step, (lo - 1 - offset) % step,
      (Nat.div_add_mod' _ _).symm, Nat.mod_lt _ (by omega)⟩
  have hq : (lo - 1 - offset) / step = q := by
    rw [hqr, Nat.add_comm, Nat.add_mul_div_right _ _ (show 0 < step by omega),
      Nat.div_eq_of_lt hrlt, Nat.zero_add]
  have hmod : (lo - offset) % step = (r + 1) % step := by
    rw [show lo - offset = r + 1 + q * step from by omega,
      Nat.add_mul_mod_self_right]
  have hdist : (q + 1) * step = q * step + step := by ring
  rw [hmod, hq]
  by_cases hcase : r + 1 = step
  · rw [hcase, Nat.mod_self, Nat.sub_zero, Nat.mod_self]
    omega
  · rw [Nat.mod_eq_of_lt (by omega : r + 1 < step),
      Nat.mod_eq_of_lt (by omega : step - (r + 1) < step)]
    omega

/-- The `Every` arm of `count_selected_in` computes `|S ∩ [lo, hi]|`
(before the `u16` cast). -/
theorem countSelectedIn_every (step offset lo hi : Nat)
    (hs : 1 ≤ step) (hlh : lo ≤ hi) (hw : hi - lo ≤ 65534) :
    countSelectedIn (.Every step offset) lo hi =
      (selCount (.Every step offset) lo hi, .Every step offset) := by
  rw [selCount_every step offset lo hi hs (by omega)]
  rw [countSelectedIn]
  dsimp only
  by_cases hstart : hi < max lo offset
  · have hE1 : progCount step offset (hi + 1) = 0 := by
      rw [progCount, if_pos (by omega)]
    rw [if_pos hstart, hE1, Nat.zero_sub]
  · rw [if_neg hstart]
    by_cases hlo : lo ≤ offset
    · have hmax : max lo offset = offset := by omega
      have hE1 : progCount step offset (hi + 1) = (hi - offset) / step + 1 := by
        rw [progCount, if_neg (by omega)]
        rw [show hi + 1 - 1 - offset = hi - offset from by omega]
      have hE0 : progCount step offset lo = 0 := by
        rw [progCount, if_pos hlo]
      rw [hmax, Nat.sub_self, Nat.zero_mod, Nat.sub_zero, Nat.mod_self,
        Nat.add_zero]
      rw [if_neg (by omega : ¬hi < offset), hE0, hE1, Nat.sub_zero]
      have hdle : (hi - offset) / step ≤ hi - offset := Nat.div_le_self _ _
      rw [Nat.mod_eq_of_lt (by omega)]
      simp only [Prod.mk.injEq]
      exact ⟨by omega, trivial⟩
    · have hmax : max lo offset = lo := by omega
      have hofflt : offset < lo := by omega
      have hfirst := every_first_eq step offset lo hs hofflt
      set q := (lo - 1 - offset) / step with hqdef
      have hdist : (q + 1) * step = q * step + step := by ring
      have hE1 : progCount step offset (hi + 1) = (hi - offset) / step + 1 := by
        rw [progCount, if_neg (by omega)]
        rw [show hi + 1 - 1 - offset = hi - offset from by omega]
      have hElo : progCount step offset lo = q + 1 := by
        rw [progCount, if_neg (by omega)]
      rw [hmax, hfirst, hE1, hElo]
      by_cases hfhi : hi < offset + (q + 1) * step
      · rw [if_pos hfhi]
        have hcomm : step * q = q * step := by ring
        have hup : (hi - offset) / step ≤ q := by
          rw [Nat.div_le_iff_le_mul_add_pred (by omega : 0 < step)]
          omega
        simp only [Prod.mk.injEq]
        exact ⟨by omega, trivial⟩
      · rw [if_neg hfhi]
        have hcomm : step * (q + 1) = (q + 1) * step := by ring
        have hsplit : hi - offset =
            step * (q + 1) + (hi - (offset + (q + 1) * step)) := by
          omega
        have hdiv : (hi - offset) / step =
            q + 1 + (hi - (offset + (q + 1) * step)) / step := by
          rw [hsplit, Nat.mul_add_div (by omega : 0 < step)]
        have hle2 : lo ≤ offset + (q + 1) * step := by
          rw [← hfirst]
          omega
        have hd2 : (hi - (offset + (q + 1) * step)) / step ≤ hi - lo := by
          have := Nat.div_le_self (hi - (offset + (q + 1) * step)) step
          omega
        rw [Nat.mod_eq_of_lt
          (show 1 + (hi - (offset + (q + 1) * step)) / step < 65536 by omega)]
        simp only [Prod.mk.injEq]
        refine ⟨?_, trivial⟩
        rw [hdiv]
        generalize (hi - (offset + (q + 1) * step)) / step = g2
        omega

theorem range_E_step (s e : Nat) (x : Nat) :
    min (x + 1) (e + 1) - min (x + 1) s =
      (min x (e + 1) - min x s) +
        if selMem (.Range s e) x then 1 else 0 := by
  rw [selMem]
  by_cases h : s ≤ x ∧ x ≤ e
  · rw [if_pos (by simp [h.1, h.2])]
    omega
  · rw [if_neg (by simp; omega)]
    omega

/-- The `Range` arm of `count_selected_in` computes `|S ∩ [lo, hi]|`
(before the `u16` cast). -/
theorem countSelectedIn_range (s e lo hi : Nat) (hse : s ≤ e)
    (hlh : lo ≤ hi) (hw : hi - lo ≤ 65534) :
    countSelectedIn (.Range s e) lo hi =
      (selCount (.Range s e) lo hi, .Range s e) := by
  have hsel : selCount (.Range s e) lo hi =
      (min (hi + 1) (e + 1) - min (hi + 1) s) - (min lo (e + 1) - min lo s) := by
    rw [selCount, filter_range'_telescope _ (fun x => min x (e + 1) - min x s)
      (range_E_step s e)]
    rw [show lo + (hi + 1 - lo) = hi + 1 from by omega]
  rw [countSelectedIn, hsel]
  by_cases h : hi < s ∨ e < lo
  · rw [if_pos h]
    simp only [Prod.mk.injEq]
    refine ⟨?_, trivial⟩
    simp only [Nat.min_def, Nat.max_def]
    split_ifs <;> omega
  · rw [if_neg h]
    have hlt : min hi e - max lo s + 1 < 65536 := by
      simp only [Nat.min_def, Nat.max_def]
      split_ifs <;> omega
    rw [Nat.mod_eq_of_lt hlt]
    simp only [Prod.mk.injEq]
    refine ⟨?_, trivial⟩
    simp only [Nat.min_def, Nat.max_def]
    split_ifs <;> omega

theorem countP_lt_succ_split (L : List Nat) (x : Nat) :
    L.countP (fun y => decide (y < x + 1)) =
      L.countP (fun y => decide (y < x)) + L.count x := by
  induction L with
  | nil => rfl
  | cons a t ih =>
      rw [List.countP_cons, List.countP_cons, List.count_cons]
      simp only [decide_eq_true_eq, beq_iff_eq]
      by_cases h1 : a = x
      · subst h1
        rw [if_pos (by omega), if_neg (by omega), if_pos rfl]
        omega
      · by_cases h2 : a < x
        · rw [if_pos (by omega), if_pos h2, if_neg (by omega)]
          omega
        · rw [if_neg (by omega), if_neg h2, if_neg (by omega)]
          omega

theorem indices_E_step (L : List Nat) (hnd : L.Nodup) (x : Nat) :
    L.countP (fun y => decide (y < x + 1)) =
      L.countP (fun y => decide (y < x)) +
        if selMem (.Indices L) x then 1 else 0 := by
  rw [countP_lt_succ_split, selMem]
  congr 1
  by_cases h : x ∈ L
  · rw [if_pos (by simpa [List.elem_iff] using h)]
    exact List.count_eq_one_of_mem hnd h
  · rw [if_neg (by simpa [List.elem_iff] using h)]
    exact List.count_eq_zero_of_not_mem h

theorem countP_interval_split (L : List Nat) (lo hi : Nat) (h : lo ≤ hi + 1) :
    L.countP (fun y => decide (y < hi + 1)) =
      L.countP (fun y => decide (y < lo)) +
      L.countP (fun y => decide (lo ≤ y) && decide (y ≤ hi)) := by
  induction L with
  | nil => rfl
  | cons a t ih =>
      rw [List.countP_cons, List.countP_cons, List.countP_cons]
      by_cases h1 : a < lo
      · simp only [if_pos (by simp; omega : (decide (a < hi + 1) : Bool) = true),
          if_pos (by simp; omega : (decide (a < lo) : Bool) = true),
          if_neg (by simp; omega :
            ¬(decide (lo ≤ a) && decide (a ≤ hi) : Bool) = true)]
        omega
      · by_cases h2 : a ≤ hi
        · simp only [if_pos (by simp; omega : (decide (a < hi + 1) : Bool) = true),
            if_neg (by simp; omega : ¬(decide (a < lo) : Bool) = true),
            if_pos (by simp; omega :
              (decide (lo ≤ a) && decide (a ≤ hi) : Bool) = true)]
          omega
        · simp only [if_neg (by simp; omega : ¬(decide (a < hi + 1) : Bool) = true),
            if_neg (by simp; omega : ¬(decide (a < lo) : Bool) = true),
            if_neg (by simp; omega :
              ¬(decide (lo ≤ a) && decide (a ≤ hi) : Bool) = true)]
          omega

theorem selCount_indices (L : List Nat) (hnd : L.Nodup) (lo hi : Nat)
    (hlh : lo ≤ hi + 1) :
    selCount (.Indices L) lo hi =
      L.countP (fun y => decide (lo ≤ y) && decide (y ≤ hi)) := by
  rw [selCount, filter_range'_telescope _
    (fun x => L.countP fun y => decide (y < x)) (indices_E_step L hnd)]
  rw [show lo + (hi + 1 - lo) = hi + 1 from by omega]
  rw [countP_interval_split L lo hi hlh]
  omega

theorem indicesCount_sorted (hi : Nat) :
    ∀ (l : List Nat) (lo t : Nat), List.Pairwise (· < ·) l → (∀ x ∈ l, lo ≤ x) →
      t + l.countP (fun x => decide (x ≤ hi)) ≤ 65535 →
      indicesCount l lo hi t =
        (t + l.countP fun x => decide (x ≤ hi),
         l.dropWhile fun x => decide (x ≤ hi)) := by
  intro l
  induction l with
  | nil => intro lo t _ _ _; simp [indicesCount]
  | cons x rest ih =>
      intro lo t hsort hge hcap
      have hx : lo ≤ x := hge x (List.mem_cons_self x rest)
      rw [indicesCount, if_neg (by omega : ¬x < lo)]
      by_cases hhi : hi < x
      · rw [if_pos hhi]
        have hcnt : (x :: rest).countP (fun y => decide (y ≤ hi)) = 0 := by
          rw [List.countP_eq_zero]
          intro a ha
          rcases List.mem_cons.mp ha with rfl | ha
          · simp; omega
          · have := (List.pairwise_cons.mp hsort).1 a ha
            simp; omega
        rw [hcnt, List.dropWhile_cons,
          if_neg (by simp; omega : ¬(decide (x ≤ hi) : Bool) = true)]
        rfl
      · rw [if_neg hhi]
        obtain ⟨hhead, hrest⟩ := List.pairwise_cons.mp hsort
        have hcnt : (x :: rest).countP (fun y => decide (y ≤ hi)) =
            rest.countP (fun y => decide (y ≤ hi)) + 1 := by
          rw [List.countP_cons, if_pos (by simp; omega)]
        rw [hcnt] at hcap
        have hmin : min (t + 1) 65535 = t + 1 := by omega
        rw [hmin, ih lo (t + 1) hrest
          (fun y hy => le_trans hx (le_of_lt (hhead y hy))) (by omega)]
        rw [hcnt, List.dropWhile_cons,
          if_pos (by simp; omega : (decide (x ≤ hi) : Bool) = true)]
        congr 1
        omega

theorem dropWhile_le_sorted (hi : Nat) :
    ∀ l : List Nat, List.Pairwise (· < ·) l →
      (l.dropWhile fun x => decide (x ≤ hi)) = l.filter fun x => decide (hi < x) := by
  intro l
  induction l with
  | nil => intro _; rfl
  | cons x rest ih =>
      intro hsort
      obtain ⟨hhead, hrest⟩ := List.pairwise_cons.mp hsort
      rw [List.dropWhile_cons, List.filter_cons]
      by_cases h : x ≤ hi
      · rw [if_pos (by simp; omega), if_neg (by simp; omega)]
        exact ih hrest
      · rw [if_neg (by simp; omega), if_pos (by simp; omega)]
        congr 1
        symm
        rw [List.filter_eq_self]
        intro a ha
        have := hhead a ha
        simp
        omega

/-- One step of the Indices runtime state: counting consumes exactly
the selected indices in `[lo, hi]` and leaves those above `hi`. -/
theorem countSelectedIn_indices (L : List Nat) (hsort : List.Pairwise (· < ·) L)
    (sample hi : Nat) (hlh : sample < hi)
    (hcap : selCount (.Indices L) (sample + 1) hi ≤ 65535) :
    countSelectedIn (.Indices (L.filter fun x => decide (sample < x)))
        (sample + 1) hi =
      (selCount (.Indices L) (sample + 1) hi,
       .Indices (L.filter fun x => decide (hi < x))) := by
  have hnd : L.Nodup := hsort.imp fun h => by omega
  have hsort' : List.Pairwise (· < ·) (L.filter fun x => decide (sample < x)) :=
    hsort.filter _
  have hcnt : (L.filter fun x => decide (sample < x)).countP
      (fun x => decide (x ≤ hi)) = selCount (.Indices L) (sample + 1) hi := by
    rw [List.countP_filter, selCount_indices L hnd _ _ (by omega)]
    apply List.countP_congr
    intro a _
    simp
    omega
  rw [countSelectedIn]
  rw [indicesCount_sorted hi _ _ 0 hsort'
    (fun y hy => by have := (List.mem_filter.mp hy).2; simp at this; omega)
    (by omega)]
  rw [dropWhile_le_sorted hi _ hsort', List.filter_filter]
  dsimp only
  rw [hcnt, Nat.zero_add]
  congr 2
  apply List.filter_congr
  intro a _
  simp
  omega

theorem subsampleRun_every (step offset : Nat) (hs : 1 ≤ step) :
    ∀ (recs : List (List Nat × Nat)) (sample : Nat),
      (∀ r ∈ recs, 1 ≤ r.2 ∧ r.2 ≤ 65535) →
      subsampleRun (.Every step offset) sample recs =
        specOutput (.Every step offset) sample recs := by
  intro recs
  induction recs with
  | nil => intro sample _; rfl
  | cons r rest ih =>
      intro sample hrec
      have hr := hrec r (List.mem_cons_self r rest)
      rw [subsampleRun, specOutput]
      rw [rangeStop_every, if_neg Bool.false_ne_true]
      dsimp only
      rw [countSelectedIn_every step offset (sample + 1) (sample + r.2) hs
        (by omega) (by omega)]
      dsimp only
      by_cases h : 0 < selCount (.Every step offset) (sample + 1) (sample + r.2)
      · rw [if_pos h, if_pos h,
          ih (sample + r.2) fun x hx => hrec x (List.mem_cons_of_mem r hx)]
      · rw [if_neg h, if_neg h,
          ih (sample + r.2) fun x hx => hrec x (List.mem_cons_of_mem r hx)]

theorem specOutput_range_past (s e : Nat) :
    ∀ (recs : List (List Nat × Nat)) (sample : Nat), e ≤ sample →
      specOutput (.Range s e) sample recs = [] := by
  intro recs
  induction recs with
  | nil => intro sample _; rfl
  | cons r rest ih =>
      intro sample he
      rw [specOutput]
      have hz : selCount (.Range s e) (sample + 1) (sample + r.2) = 0 := by
        rw [selCount]
        have : (List.range' (sample + 1) (sample + r.2 + 1 - (sample + 1))).filter
            (selMem (.Range s e)) = [] := by
          rw [List.filter_eq_nil]
          intro a ha
          have := (List.mem_range'_1.mp ha).1
          rw [selMem]
          simp
          omega
        rw [this]
        rfl
      rw [hz, if_neg (by omega)]
      exact ih (sample + r.2) (by omega)

theorem subsampleRun_range (s e : Nat) (hse : s ≤ e) :
    ∀ (recs : List (List Nat × Nat)) (sample : Nat),
      (∀ r ∈ recs, 1 ≤ r.2 ∧ r.2 ≤ 65535) →
      subsampleRun (.Range s e) sample recs =
        specOutput (.Range s e) sample recs := by
  intro recs
  induction recs with
  | nil => intro sample _; rfl
  | cons r rest ih =>
      intro sample hrec
      have hr := hrec r (List.mem_cons_self r rest)
      by_cases he : e ≤ sample
      · rw [subsampleRun, if_pos (by rw [rangeStop]; simpa using he)]
        rw [specOutput_range_past s e _ sample he]
      · rw [subsampleRun, specOutput, if_neg (by rw [rangeStop]; simpa using he)]
        dsimp only
        rw [countSelectedIn_range s e (sample + 1) (sample + r.2) hse
          (by omega) (by omega)]
        dsimp only
        by_cases h : 0 < selCount (.Range s e) (sample + 1) (sample + r.2)
        · rw [if_pos h, if_pos h,
            ih (sample + r.2) fun x hx => hrec x (List.mem_cons_of_mem r hx)]
        · rw [if_neg h, if_neg h,
            ih (sample + r.2) fun x hx => hrec x (List.mem_cons_of_mem r hx)]

theorem subsampleRun_indices_inv (L : List Nat) (hsort : List.Pairwise (· < ·) L) :
    ∀ (recs : List (List Nat × Nat)) (sample : Nat),
      (∀ r ∈ recs, 1 ≤ r.2 ∧ r.2 ≤ 65535) →
      subsampleRun (.Indices (L.filter fun x => decide (sample < x))) sample recs =
        specOutput (.Indices L) sample recs := by
  intro recs
  induction recs with
  | nil => intro sample _; rfl
  | cons r rest ih =>
      intro sample hrec
      have hr := hrec r (List.mem_cons_self r rest)
      rw [subsampleRun, specOutput]
      rw [rangeStop_indices, if_neg Bool.false_ne_true]
      dsimp only
      have hcap : selCount (.Indices L) (sample + 1) (sample + r.2) ≤ 65535 := by
        have h1 : selCount (.Indices L) (sample + 1) (sample + r.2) ≤
            (List.range' (sample + 1) (sample + r.2 + 1 - (sample + 1))).length :=
          List.length_filter_le _ _
        rw [List.length_range'] at h1
        omega
      rw [countSelectedIn_indices L hsort sample (sample + r.2) (by omega) hcap]
      dsimp only
      by_cases h : 0 < selCount (.Indices L) (sample + 1) (sample + r.2)
      · rw [if_pos h, if_pos h,
          ih (sample + r.2) fun x hx => hrec x (List.mem_cons_of_mem r hx)]
      · rw [if_neg h, if_neg h,
          ih (sample + r.2) fun x hx => hrec x (List.mem_cons_of_mem r hx)]

/-- C3: for every well-formed selection (sorted unique 1-based
`Indices`; `Every` with `step ≥ 1` and `offset ≥ 1`; `Range` with
`1 ≤ start ≤ end`) and every upstream record stream with counts in
`[1, 2¹⁶−1]`, the adapter yields exactly one record `(assignment,
selected)` for each upstream record whose expanded interval meets the
selected set, with `selected = |S ∩ [lo, hi]|`, in stream order — the
global counter advancing by every record's count regardless, and the
`Range` early stop (built into `subsampleRun`) losing nothing. -/
theorem C3_subsample_adapter (sel : Selection) (recs : List (List Nat × Nat))
    (hwf : SelWF sel) (hrec : ∀ r ∈ recs, 1 ≤ r.2 ∧ r.2 ≤ 65535) :
    subsampleRun sel 0 recs = specOutput sel 0 recs := by
  cases sel with
  | Indices L =>
      obtain ⟨hsort, h1⟩ := hwf
      have hfil : L.filter (fun x => decide (0 < x)) = L :=
        List.filter_eq_self.mpr fun a ha => by
          have := h1 a ha
          simp
          omega
      have := subsampleRun_indices_inv L hsort recs 0 hrec
      rw [hfil] at this
      exact this
  | Every step offset => exact subsampleRun_every step offset hwf.1 recs 0 hrec
  | Range s e => exact subsampleRun_range s e hwf.2 recs 0 hrec

/-- Witness for C3 on all three selection kinds over the same
two-record stream. -/
theorem C3_subsample_adapter_witness :
    (SelWF (.Indices [2, 4]) ∧ SelWF (.Every 2 1) ∧ SelWF (.Range 2 3) ∧
      (∀ r ∈ ([([5], 3), ([6], 2)] : List (List Nat × Nat)),
        1 ≤ r.2 ∧ r.2 ≤ 65535)) ∧
    subsampleRun (.Indices [2, 4]) 0 [([5], 3), ([6], 2)] =
      specOutput (.Indices [2, 4]) 0 [([5], 3), ([6], 2)] ∧
    subsampleRun (.Every 2 1) 0 [([5], 3), ([6], 2)] =
      specOutput (.Every 2 1) 0 [([5], 3), ([6], 2)] ∧
    subsampleRun (.Range 2 3) 0 [([5], 3), ([6], 2)] =
      specOutput (.Range 2 3) 0 [([5], 3), ([6], 2)] :=
  ⟨⟨⟨by decide, by decide⟩, ⟨by decide, by decide⟩, ⟨by decide, by decide⟩,
    by decide⟩,
    C3_subsample_adapter (.Indices [2, 4]) [([5], 3), ([6], 2)]
      ⟨by decide, by decide⟩ (by decide),
    C3_subsample_adapter (.Every 2 1) [([5], 3), ([6], 2)]
      ⟨by decide, by decide⟩ (by decide),
    C3_subsample_adapter (.Range 2 3) [([5], 3), ([6], 2)]
      ⟨by decide, by decide⟩ (by decide)⟩

theorem dedupConsec_mem : ∀ (l : List Nat) (i : Nat), i ∈ dedupConsec l ↔ i ∈ l := by
  intro l
  induction l with
  | nil => intro i; rfl
  | cons x t ih =>
      intro i
      cases t with
      | nil => rfl
      | cons y rest =>
          rw [dedupConsec]
          by_cases h : x = y
          · rw [if_pos h]
            subst h
            rw [ih i]
            constructor
            · intro hm
              exact List.mem_cons_of_mem _ hm
            · intro hm
              rcases List.mem_cons.mp hm with rfl | hm2
              · exact List.mem_cons_self _ _
              · exact hm2
          · rw [if_neg h, List.mem_cons, List.mem_cons, ih i]

theorem dedupConsec_sorted :
    ∀ l : List Nat, List.Pairwise (· ≤ ·) l →
      List.Pairwise (· < ·) (dedupConsec l) := by
  intro l
  induction l with
  | nil => intro _; exact List.Pairwise.nil
  | cons x t ih =>
      intro hp
      obtain ⟨hhead, hrest⟩ := List.pairwise_cons.mp hp
      cases t with
      | nil => exact List.pairwise_singleton _ _
      | cons y rest =>
          rw [dedupConsec]
          by_cases h : x = y
          · rw [if_pos h]
            exact ih hrest
          · rw [if_neg h]
            rw [List.pairwise_cons]
            refine ⟨?_, ih hrest⟩
            intro z hz
            rw [dedupConsec_mem] at hz
            have hxy : x < y := by
              have := hhead y (List.mem_cons_self y rest)
              omega
            rcases List.mem_cons.mp hz with rfl | hz
            · exact hxy
            · have := (List.pairwise_cons.mp hrest).1 z hz
              omega

theorem by_indices_selection_spec (L : List Nat) :
    ∃ M, by_indices_selection L = .Indices M ∧ List.Pairwise (· < ·) M ∧
      ∀ i, i ∈ M ↔ i ∈ L := by
  refine ⟨dedupConsec (L.mergeSort fun a b => decide (a ≤ b)), rfl, ?_, ?_⟩
  · apply dedupConsec_sorted
    have hs := @List.sorted_mergeSort Nat (fun a b : Nat => decide (a ≤ b))
      (fun a b c hab hbc => by simp at *; omega)
      (fun a b => by simp; omega) L
    exact hs.imp fun h => by simpa using h
  · intro i
    rw [dedupConsec_mem]
    exact (List.mergeSort_perm L _).mem_iff

theorem specOutput_congr_mem (L M : List Nat) (h : ∀ i, i ∈ M ↔ i ∈ L) :
    ∀ (recs : List (List Nat × Nat)) (sample : Nat),
      specOutput (.Indices M) sample recs = specOutput (.Indices L) sample recs := by
  have hsel : ∀ lo hi, selCount (.Indices M) lo hi = selCount (.Indices L) lo hi := by
    intro lo hi
    rw [selCount, selCount]
    congr 1
    apply List.filter_congr
    intro a _
    rw [selMem, selMem]
    rw [Bool.eq_iff_iff]
    constructor
    · intro h1
      have h2 : a ∈ M := by simpa [List.elem_iff] using h1
      simpa [List.elem_iff] using (h a).mp h2
    · intro h1
      have h2 : a ∈ L := by simpa [List.elem_iff] using h1
      simpa [List.elem_iff] using (h a).mpr h2
  intro recs
  induction recs with
  | nil => intro sample; rfl
  | cons r rest ih =>
      intro sample
      rw [specOutput, specOutput]
      rw [hsel]
      by_cases hk : 0 < selCount (.Indices L) (sample + 1) (sample + r.2)
      · rw [if_pos hk, if_pos hk, ih (sample + r.2)]
      · rw [if_neg hk, if_neg hk, ih (sample + r.2)]

/-- C10: `by_indices` sorts and deduplicates its index argument, so for
any list `L` (any order, any duplicates, 1-based) it selects by the
sorted list `M` of `L`'s distinct elements, and over any record stream
it yields exactly the records that the specification assigns to the
index set of `L` itself — callers need not pre-sort or dedup. -/
theorem C10_by_indices (L : List Nat) (recs : List (List Nat × Nat))
    (hL : ∀ i ∈ L, 1 ≤ i) (hrec : ∀ r ∈ recs, 1 ≤ r.2 ∧ r.2 ≤ 65535) :
    ∃ M, by_indices_selection L = .Indices M ∧
      List.Pairwise (· < ·) M ∧ (∀ i, i ∈ M ↔ i ∈ L) ∧
      subsampleRun (by_indices_selection L) 0 recs =
        specOutput (.Indices L) 0 recs := by
  obtain ⟨M, hM, hsort, hmem⟩ := by_indices_selection_spec L
  refine ⟨M, hM, hsort, hmem, ?_⟩
  rw [hM]
  have hfil : M.filter (fun x => decide (0 < x)) = M :=
    List.filter_eq_self.mpr fun a ha => by
      have := hL a ((hmem a).mp ha)
      simp
      omega
  have hrun := subsampleRun_indices_inv M hsort recs 0 hrec
  rw [hfil] at hrun
  rw [hrun]
  exact specOutput_congr_mem L M hmem recs 0

/-- Witness for C10 at the unsorted, duplicated index list
`[3, 1, 3, 2]`. -/
theorem C10_by_indices_witness :
    ((∀ i ∈ ([3, 1, 3, 2] : List Nat), 1 ≤ i) ∧
      (∀ r ∈ ([([9], 2), ([8], 3)] : List (List Nat × Nat)),
        1 ≤ r.2 ∧ r.2 ≤ 65535)) ∧
    ∃ M, by_indices_selection [3, 1, 3, 2] = .Indices M ∧
      List.Pairwise (· < ·) M ∧ (∀ i, i ∈ M ↔ i ∈ ([3, 1, 3, 2] : List Nat)) ∧
      subsampleRun (by_indices_selection [3, 1, 3, 2]) 0 [([9], 2), ([8], 3)] =
        specOutput (.Indices [3, 1, 3, 2]) 0 [([9], 2), ([8], 3)] :=
  ⟨⟨by decide, by decide⟩,
    C10_by_indices [3, 1, 3, 2] [([9], 2), ([8], 3)] (by decide) (by decide)⟩
